import Mathlib

/-!
Verification of the client-side state-reconciliation core of the messaging
client (src/src/views/view.ts, src/src/util.ts, src/src/views/error-view.ts,
and the PostElement web component).

The development shallowly embeds the TypeScript source: JavaScript Map objects
become association lists with Map semantics (mapSet replaces in place, mapGet
returns the first match), DOM elements become numeric element identities (eids)
carrying their data in an eid-indexed store, and each sibling list in the DOM
(the top-level post list and every reply list) becomes a list of eids.
-/

/-- Reaction membership sets carried by a post document, one optional array per
fixed reaction kind, mirroring the ViewReactions type of view.ts (a field that
is absent from the payload is modelled as none). -/
structure RxSets where
  smile : Option (List String)
  frown : Option (List String)
  like : Option (List String)
  celebrate : Option (List String)
deriving Repr, DecidableEq

/-- Data of a post-update payload delivered to View.handleUpdate: the document
path, message, optional parent path (doc.parent), optional reactions, and the
creation metadata used by the algorithms. -/
structure PostIn where
  path : String
  msg : String
  parentD : Option String
  reactions : Option RxSets
  createdAt : Nat
  createdBy : String
deriving Repr, DecidableEq, Inhabited

/-- Data attached to a constructed PostElement that the reconciliation
algorithms read back: getPath and getCreateDate of the web component. -/
structure NodeData where
  path : String
  createdAt : Nat
deriving Repr, DecidableEq, Inhabited

/-- JavaScript Map.set on an association list: if the key is present its value
is replaced in place, otherwise the pair is appended at the end. -/
def mapSet {α β : Type} [DecidableEq α] (m : List (α × β)) (k : α) (v : β) :
    List (α × β) :=
  match m with
  | [] => [(k, v)]
  | (k2, v2) :: rest => if k2 = k then (k, v) :: rest else (k2, v2) :: mapSet rest k v

/-- JavaScript Map.get on an association list: the first value stored under the
key, if any. -/
def mapGet {α β : Type} [DecidableEq α] (m : List (α × β)) (k : α) : Option β :=
  match m with
  | [] => none
  | (k2, v2) :: rest => if k2 = k then some v2 else mapGet rest k

/-- Lookup of the entry under a key together with the remainder of the list.
The recursion of View.insertPost walks the reply buffer once per spliced
element; extracting the used entry from the recursion view (the live buffer is
not modified by the source) gives a terminating shape that agrees with the
source whenever the source terminates, i.e. whenever post paths are distinct. -/
def extractKey (l : List (String × Nat)) (k : String) :
    Option (Nat × List (String × Nat)) :=
  match l with
  | [] => none
  | (k2, v) :: rest =>
    if k2 = k then some (v, rest)
    else
      match extractKey rest k with
      | none => none
      | some (v2, rest2) => some (v2, (k2, v) :: rest2)

/-- Reconciliation state owned by the View for the open channel: the eid
allocator, the eid-indexed element store, activePosts (path to element),
replyBuffer (parent path to buffered orphan element), the top-level post list
of the current ChannelContent, the per-element reply lists, and the reply
cursor (activeReply). -/
structure VState where
  nextEid : Nat
  elems : List (Nat × NodeData)
  activePosts : List (String × Nat)
  replyBuffer : List (String × Nat)
  topLevel : List Nat
  childrenMap : List (Nat × List Nat)
  activeReply : Option String
deriving Repr, DecidableEq

/-- State of a freshly constructed View: all maps and lists empty. -/
def initState : VState :=
  { nextEid := 0, elems := [], activePosts := [], replyBuffer := [],
    topLevel := [], childrenMap := [], activeReply := none }

/-- Value of element.getPath() for an eid. -/
def pathOfEid (st : VState) (e : Nat) : String :=
  ((mapGet st.elems e).map (fun d => d.path)).getD ""

/-- Value of element.getCreateDate() for an eid. -/
def dateOfEid (st : VState) (e : Nat) : Nat :=
  ((mapGet st.elems e).map (fun d => d.createdAt)).getD 0

/-- The sibling list targeted by an insertion: the children of the parent
element when the new post is a reply, the top-level list of the current
ChannelContent otherwise. -/
def currentList (st : VState) (parent : Option Nat) : List Nat :=
  match parent with
  | none => st.topLevel
  | some pe => (mapGet st.childrenMap pe).getD []

/-- Scan of View.insertPost: a single pass that keeps the first element whose
createdAt is strictly greater than the new date and strictly smaller than the
best candidate so far (earliestDate starts at Infinity), returning the element
to insert before together with its date. -/
def insertScan (dates : Nat → Nat) (newDate : Nat) (l : List Nat) :
    Option (Nat × Nat) :=
  l.foldl
    (fun acc x =>
      let d := dates x
      match acc with
      | none => if newDate < d then some (x, d) else none
      | some q => if newDate < d ∧ d < q.2 then some (x, d) else some q)
    none

/-- DOM insertAdjacentElement with position beforebegin relative to the element
x inside a sibling list: the new eid is placed immediately before the first
occurrence of x (appended if x is absent, which does not occur in reachable
states). -/
def insertBeforeEid (l : List Nat) (x e : Nat) : List Nat :=
  match l with
  | [] => [e]
  | y :: rest => if y = x then e :: y :: rest else y :: insertBeforeEid rest x e

/-- DOM move semantics: appending or inserting an element first removes it from
any list it currently sits in. For freshly constructed or buffered elements
(the only elements the source inserts) this is a no-op. -/
def detachAll (st : VState) (e : Nat) : VState :=
  { st with topLevel := st.topLevel.filter (fun y => y != e),
            childrenMap := st.childrenMap.map (fun kl => (kl.1, kl.2.filter (fun y => y != e))) }

/-- Writing an updated sibling list back to its owner. -/
def writeBack (st : VState) (parent : Option Nat) (l : List Nat) : VState :=
  match parent with
  | none => { st with topLevel := l }
  | some pe => { st with childrenMap := mapSet st.childrenMap pe l }

/-- Placement step of View.insertPost: snapshot the target sibling list,
scan it for the insertion point, then insert the new element before the found
entry (parentPost.addReply or ChannelContent.displayPost append it at the end
when no entry is found). -/
def placeElem (st : VState) (e : Nat) (parent : Option Nat) : VState :=
  let snapshot := currentList st parent
  let newDate := dateOfEid st e
  let stD := detachAll st e
  let target := currentList stD parent
  match insertScan (dateOfEid st) newDate snapshot with
  | some q => writeBack stD parent (insertBeforeEid target q.1 e)
  | none => writeBack stD parent (target ++ [e])

/-- Recursion of View.insertPost: after placing the element, any buffered child
keyed by the new element's path is recursively inserted under it (the source
iterates replyBuffer looking for the key; Map keys are unique, so at most one
entry matches). The extraction removes the used entry from the recursion view
only (the source never modifies the live buffer during the cascade), and the
fuel bounds the chain length by the number of buffer entries; the fuel-exhausted
branch is unreachable because every chain step consumes one entry of the
extracted remainder. -/
def insertPostFuel : Nat → List (String × Nat) → Nat → Option Nat → VState →
    VState
  | 0, _, e, parent, st => placeElem st e parent
  | fuel + 1, buf, e, parent, st =>
    let st1 := placeElem st e parent
    match extractKey buf (pathOfEid st1 e) with
    | none => st1
    | some vrest => insertPostFuel fuel vrest.2 vrest.1 (some e) st1

/-- View.insertPost: the placement and splice cascade started with fuel
covering the whole buffer. -/
def insertPost (buf : List (String × Nat)) (e : Nat) (parent : Option Nat)
    (st : VState) : VState :=
  insertPostFuel buf.length buf e parent st

/-- Truthiness of doc.parent in view.ts: a parent reference is effective only
when the field is present and not the empty string. -/
def optNonEmpty (o : Option String) : Option String :=
  match o with
  | none => none
  | some s => if s = "" then none else some s

/-- Data captured by the PostElement constructed for a payload. -/
def nodeDataOf (u : PostIn) : NodeData :=
  { path := u.path, createdAt := u.createdAt }

/-- Construction and indexing of a new PostElement in handleUpdate: a fresh
element is allocated, given an empty reply list, and activePosts is updated at
the payload path before the parent lookup happens. -/
def allocElem (u : PostIn) (st : VState) : VState :=
  let e := st.nextEid
  { st with nextEid := e + 1,
            elems := (e, nodeDataOf u) :: st.elems,
            childrenMap := (e, []) :: st.childrenMap,
            activePosts := mapSet st.activePosts u.path e }

/-- View.replyModeOff restricted to the reconciliation state: when the target
post is indexed, the reply cursor is cleared. -/
def replyModeOffSt (postId : String) (st : VState) : VState :=
  match mapGet st.activePosts postId with
  | some _ => { st with activeReply := none }
  | none => st

/-- View.handleUpdate on the reconciliation state. A payload whose path is
already indexed and whose doc carries reactions is a reaction-only patch
(View.updateReactions touches only the reaction display of the target element,
modelled separately by updatePostReactions, so the structural state is
unchanged). Any other payload builds a fresh element, indexes it, and either
buffers it (parent reference unresolved) or inserts it into its sibling list,
splicing buffered children recursively; a reply authored by the current user
additionally closes reply mode for its parent. -/
def handleUpdate (username : String) (u : PostIn) (st : VState) : VState :=
  if (mapGet st.activePosts u.path).isSome && u.reactions.isSome then
    st
  else
    let e := st.nextEid
    let st1 := allocElem u st
    match optNonEmpty u.parentD with
    | some pp =>
      match mapGet st1.activePosts pp with
      | none => { st1 with replyBuffer := mapSet st1.replyBuffer pp e }
      | some pe =>
        let st2 := insertPost st1.replyBuffer e (some pe) st1
        if u.createdBy = username then replyModeOffSt pp st2 else st2
    | none => insertPost st1.replyBuffer e none st1

/-- Reply lists of an element (empty for unknown eids). -/
def childrenOf (st : VState) (e : Nat) : List Nat :=
  (mapGet st.childrenMap e).getD []

/-- Fuel-bounded flattening of the rendered subtree below an element: the
element followed by the flattenings of its replies. -/
def subtreeFlatten (cm : List (Nat × List Nat)) : Nat → Nat → List Nat
  | 0, e => [e]
  | fuel + 1, e =>
    e :: (((mapGet cm e).getD []).map (fun c => subtreeFlatten cm fuel c)).flatten

/-- Every element reachable from the top-level post list of the channel,
listed in render order, each subtree cut off at the given depth. -/
def displayedPosts (st : VState) (fuel : Nat) : List Nat :=
  (st.topLevel.map (fun e => subtreeFlatten st.childrenMap fuel e)).flatten

/-- Display state of one reaction control of a PostElement: the count text
(kept as a number), whether the button carries the clicked class, and whether
it is disabled (pending confirmation). -/
structure RxButton where
  count : Nat
  clicked : Bool
  disabled : Bool
deriving Repr, DecidableEq

/-- The four reaction controls of a PostElement. -/
structure PostButtons where
  smile : RxButton
  frown : RxButton
  like : RxButton
  celebrate : RxButton
deriving Repr, DecidableEq

/-- The fixed closed set of reaction kinds. -/
inductive RxKind where
  | smile
  | frown
  | like
  | celebrate
deriving Repr, DecidableEq

/-- Initial display of one reaction control in the PostElement constructor:
when the kind is present in the reactions object the count is its array length
and the clicked class reflects membership of the current user; otherwise the
count is 0. -/
def initKindBtn (o : Option (List String)) (user : String) : RxButton :=
  match o with
  | some l => { count := l.length, clicked := l.contains user, disabled := false }
  | none => { count := 0, clicked := false, disabled := false }

/-- Initial reaction display of a PostElement built from an optional reactions
object (all counts 0 when the object is absent). -/
def initButtons (ro : Option RxSets) (user : String) : PostButtons :=
  match ro with
  | some r =>
    { smile := initKindBtn r.smile user, frown := initKindBtn r.frown user,
      like := initKindBtn r.like user, celebrate := initKindBtn r.celebrate user }
  | none =>
    { smile := { count := 0, clicked := false, disabled := false },
      frown := { count := 0, clicked := false, disabled := false },
      like := { count := 0, clicked := false, disabled := false },
      celebrate := { count := 0, clicked := false, disabled := false } }

/-- Projection of the control of a kind. -/
def getBtn (b : PostButtons) : RxKind → RxButton
  | RxKind.smile => b.smile
  | RxKind.frown => b.frown
  | RxKind.like => b.like
  | RxKind.celebrate => b.celebrate

/-- Replacement of the control of a kind. -/
def setBtn (b : PostButtons) (k : RxKind) (v : RxButton) : PostButtons :=
  match k with
  | RxKind.smile => { b with smile := v }
  | RxKind.frown => { b with frown := v }
  | RxKind.like => { b with like := v }
  | RxKind.celebrate => { b with celebrate := v }

/-- PostElement.react for a click on the control of one kind: the button is
disabled and a reactEvent is dispatched whose clicked flag is the current
clicked state of the button; the displayed count and the clicked class are not
touched. Returns the new controls and the dispatched clicked flag. -/
def reactClick (b : PostButtons) (k : RxKind) : PostButtons × Bool :=
  (setBtn b k { getBtn b k with disabled := true }, (getBtn b k).clicked)

/-- Per-kind body of PostElement.renderReactions: the count is always set; when
the button is disabled (pending) and the incoming membership differs from the
displayed clicked state, the membership is adopted and the button re-enabled;
otherwise the membership is set and the disabled flag is left unchanged. -/
def renderKind (b : RxButton) (cnt : Nat) (inK : Bool) : RxButton :=
  if b.disabled && (b.clicked != inK) then
    { count := cnt, clicked := inK, disabled := false }
  else
    { count := cnt, clicked := inK, disabled := b.disabled }

/-- PostElement.renderReactions: the per-kind body applied to each of the four
controls with its count and membership arguments. -/
def renderReactions (b : PostButtons) (sc : Nat) (sIn : Bool) (fc : Nat)
    (fIn : Bool) (lc : Nat) (lIn : Bool) (cc : Nat) (cIn : Bool) : PostButtons :=
  { smile := renderKind b.smile sc sIn,
    frown := renderKind b.frown fc fIn,
    like := renderKind b.like lc lIn,
    celebrate := renderKind b.celebrate cc cIn }

/-- Count and membership computed by View.updateReactions for one kind: array
length and inclusion of the current user when the kind is present, 0 and false
otherwise. -/
def kindStats (o : Option (List String)) (user : String) : Nat × Bool :=
  match o with
  | some l => (l.length, l.contains user)
  | none => (0, false)

/-- View.updateReactions followed by PostElement.renderReactions on the target
element found in activePosts. -/
def updatePostReactions (newReactions : RxSets) (user : String)
    (b : PostButtons) : PostButtons :=
  let s := kindStats newReactions.smile user
  let f := kindStats newReactions.frown user
  let l := kindStats newReactions.like user
  let c := kindStats newReactions.celebrate user
  renderReactions b s.1 s.2 f.1 f.2 l.1 l.2 c.1 c.2

/-- Claim-level specification of a reaction merge for one kind: the displayed
count becomes the size of the server set, displayed membership becomes the
membership of the current user, a pending control whose displayed membership
disagrees with the server is re-enabled, and otherwise the pending state is
unchanged. -/
abbrev MergeSpec (pre : RxButton) (o : Option (List String)) (user : String)
    (post : RxButton) : Prop :=
  post.count = (o.getD []).length ∧
  post.clicked = (o.getD []).contains user ∧
  (pre.disabled = true → pre.clicked ≠ (o.getD []).contains user →
    post.disabled = false) ∧
  (pre.disabled = false ∨ pre.clicked = (o.getD []).contains user →
    post.disabled = pre.disabled)

/-- Container kinds managed by ContainerItem in util.ts. -/
inductive ContainerType where
  | workspace
  | channel
deriving Repr, DecidableEq

/-- Kinds of events reaching ContainerItem.submit. -/
inductive SubmitEventKind where
  | escapeKey
  | enterKey
  | otherKey
  | mouse
deriving Repr, DecidableEq

/-- Externally observable outcome of one ContainerItem.submit call. -/
inductive SubmitOutcome where
  | removed
  | ignored
  | errorShown (msg : String)
  | dispatched (eventName workspaceName channelName : String)
deriving Repr, DecidableEq

/-- Single-quote character, written by code point to keep the message text
exactly as in the source. -/
def q39 : String := String.singleton (Char.ofNat 39)

/-- Error message of ContainerItem.submit for a name containing an invalid
character. -/
def invalidNameMsg : String :=
  "Contains invalid character. Cannot contain " ++ q39 ++ "/" ++ q39 ++ ", " ++
    q39 ++ "." ++ q39 ++ ", " ++ q39 ++ "\"" ++ q39 ++ " or " ++ q39 ++ "\\" ++ q39

/-- Rejection test of ContainerItem.submit, in source order: the value contains
a slash, equals a single or double dot, contains a backslash, or contains a
double quote. -/
def badName (v : String) : Bool :=
  v.data.contains (Char.ofNat 47) || v == "." || v == ".." ||
    v.data.contains (Char.ofNat 92) || v.data.contains (Char.ofNat 34)

/-- ContainerItem.submit: Escape removes the item; Enter or a mouse click
validates the input value and either shows an inline error (dispatching
nothing) or dispatches the create event of the container type; a disabled item
ignores the submission, as does any other key. -/
def submitOutcome (type : ContainerType) (parentName : String) (disabled : Bool)
    (value : String) (ev : SubmitEventKind) : SubmitOutcome :=
  match ev with
  | SubmitEventKind.escapeKey => SubmitOutcome.removed
  | SubmitEventKind.otherKey => SubmitOutcome.ignored
  | _ =>
    if disabled then SubmitOutcome.ignored
    else if value = "" then SubmitOutcome.errorShown "Empty input"
    else if badName value then SubmitOutcome.errorShown invalidNameMsg
    else
      match type with
      | ContainerType.workspace =>
        SubmitOutcome.dispatched "createWorkspaceEvent" value ""
      | ContainerType.channel =>
        SubmitOutcome.dispatched "createChannelEvent" parentName value

/-- Listener registrations of the ErrorView: the AbortController generation
the listener was registered under (none for the listener added by show, which
is registered without a signal) and the event it would dispatch. -/
structure BannerListener where
  gen : Option Nat
  onRetry : Bool
  event : String
deriving Repr, DecidableEq

/-- State of the ErrorView retry machinery: the timer allocator, the scheduled
and not yet cleared timeouts with the event each would re-dispatch, the
timeoutId field, the current AbortController generation, the registered
listeners, and the events dispatched so far. -/
structure BannerState where
  nextTimerId : Nat
  pendingTimers : List (Nat × String)
  timeoutId : Option Nat
  listenerGen : Nat
  listeners : List BannerListener
  dispatched : List String
deriving Repr, DecidableEq

/-- State of a freshly constructed ErrorView. -/
def initBanner : BannerState :=
  { nextTimerId := 0, pendingTimers := [], timeoutId := none, listenerGen := 0,
    listeners := [], dispatched := [] }

/-- AbortController.abort followed by assigning a fresh controller: listeners
registered under the current generation are removed; scheduled timeouts are
unaffected, because the object passed as third argument to setTimeout is an
argument for the callback, not an options bag, so its signal member does not
cancel anything. -/
def abortAndRenew (st : BannerState) : BannerState :=
  { st with
    listeners := st.listeners.filter (fun l => l.gen != some st.listenerGen),
    listenerGen := st.listenerGen + 1 }

/-- ErrorView.close: dispatches the optional reverse event and clears the
timeout currently stored in timeoutId (and only that one). -/
def bannerClose (rev : Option String) (st : BannerState) : BannerState :=
  let st1 :=
    match rev with
    | some e => { st with dispatched := st.dispatched ++ [e] }
    | none => st
  match st1.timeoutId with
  | some t => { st1 with pendingTimers := st1.pendingTimers.filter (fun p => p.1 != t) }
  | none => st1

/-- ErrorView.retry: dispatches the original event, aborts the controller, and
closes the banner. -/
def bannerRetry (event : String) (st : BannerState) : BannerState :=
  bannerClose none (abortAndRenew { st with dispatched := st.dispatched ++ [event] })

/-- ErrorView.show: aborts and renews the controller and registers a dismiss
listener without a signal; no timeout is cleared. -/
def bannerShow (st : BannerState) : BannerState :=
  let st1 := abortAndRenew st
  { st1 with listeners := st1.listeners ++ [{ gen := none, onRetry := false, event := "" }] }

/-- ErrorView.showRetriableError: aborts and renews the controller, registers
cancel and retry listeners under the new generation, schedules a new timeout
for the retry of the given event (overwriting timeoutId without clearing the
previously scheduled timeout), and starts the countdown display. -/
def bannerShowRetriable (event reverseEvent : String) (st : BannerState) :
    BannerState :=
  let st1 := abortAndRenew st
  let st2 :=
    { st1 with
      listeners := st1.listeners ++
        ([{ gen := some st1.listenerGen, onRetry := false, event := reverseEvent },
          { gen := some st1.listenerGen, onRetry := true, event := event }] :
            List BannerListener) }
  { st2 with
    pendingTimers := st2.pendingTimers ++ [(st2.nextTimerId, event)],
    timeoutId := some st2.nextTimerId,
    nextTimerId := st2.nextTimerId + 1 }

/-- Event-loop step firing an expired, not-yet-cleared timeout: the timer is
consumed and the retry callback bound to its event runs. -/
def fireTimer (t : Nat) (st : BannerState) : BannerState :=
  match mapGet st.pendingTimers t with
  | some e =>
    bannerRetry e { st with pendingTimers := st.pendingTimers.filter (fun p => p.1 != t) }
  | none => st

/-- Structured post built by displayChannelContent: the payload fields plus the
children array initialised empty and filled (only) by the parent-attachment
branch. -/
inductive SPost where
  | mk (path : String) (parentD : Option String) (reactions : Option RxSets)
      (createdAt : Nat) (createdBy : String) (msg : String)
      (children : List SPost)

/-- Path of a structured post. -/
def SPost.path : SPost → String
  | SPost.mk p _ _ _ _ _ _ => p

/-- Parent field of a structured post. -/
def SPost.parentD : SPost → Option String
  | SPost.mk _ pd _ _ _ _ _ => pd

/-- Creation date of a structured post. -/
def SPost.createdAt : SPost → Nat
  | SPost.mk _ _ _ d _ _ _ => d

/-- Children array of a structured post. -/
def SPost.children : SPost → List SPost
  | SPost.mk _ _ _ _ _ _ c => c

/-- Own enumerable keys of the doc object of a payload (msg always, parent and
reactions when present), the argument of the Object.keys call in
displayChannelContent. -/
def docKeys (u : PostIn) : List String :=
  ["msg"] ++ (match u.parentD with | some _ => ["parent"] | none => []) ++
    (match u.reactions with | some _ => ["reactions"] | none => [])

/-- Standard properties of a JavaScript array object (Array.prototype methods
and the constructor), visible to the in operator besides the index properties
and length. -/
def arrayProtoKeys : List String :=
  ["constructor", "at", "concat", "copyWithin", "entries", "every", "fill",
   "filter", "find", "findIndex", "findLast", "findLastIndex", "flat",
   "flatMap", "forEach", "includes", "indexOf", "join", "keys", "lastIndexOf",
   "map", "pop", "push", "reduce", "reduceRight", "reverse", "shift", "slice",
   "some", "sort", "splice", "toLocaleString", "toReversed", "toSorted",
   "toSpliced", "toString", "unshift", "values", "with"]

/-- Semantics of the JavaScript expression name in arr for an array value: the
in operator tests property names of the array object, that is index
properties, length, and the inherited Array.prototype members, never the
elements of the array. -/
def jsArrayHasProp (arr : List String) (name : String) : Bool :=
  ((List.range arr.length).map (fun i => toString i)).contains name ||
    name == "length" || arrayProtoKeys.contains name

/-- Parent-attachment branch of displayChannelContent: the new structured post
is pushed onto the children array of every structured post whose path equals
its parent reference (the source mutates the aliased object; the branch is
unreachable, see jsArrayHasProp_parent, so the copying model is
indistinguishable). -/
def attachToParent (l : List SPost) (np : SPost) : List SPost :=
  l.map (fun pp =>
    if np.parentD = some pp.path then
      match pp with
      | SPost.mk p pd r d b m c => SPost.mk p pd r d b m (c ++ [np])
    else pp)

/-- First pass of displayChannelContent: every payload is converted to a
structured post with an empty children array and appended; when the string
parent is a property name of the key array of its doc (a condition that is
always false, the source slip) and the parent field is not the empty string,
the post is additionally attached under its parent among the already processed
posts. -/
def buildStructured (posts : List PostIn) : List SPost :=
  posts.foldl
    (fun acc u =>
      let np : SPost := SPost.mk u.path u.parentD u.reactions u.createdAt u.createdBy u.msg []
      let acc1 := acc ++ [np]
      if jsArrayHasProp (docKeys u) "parent" && u.parentD != some "" then
        attachToParent acc1 np
      else acc1)
    []

/-- View.createNestedPosts: constructs the PostElement of a structured post,
indexes it in activePosts, then recursively builds each child and appends it to
the reply list of the new element. -/
def createNested (sp : SPost) (st : VState) : VState :=
  match sp with
  | SPost.mk path _ _ createdAt _ _ children =>
    let e := st.nextEid
    let st1 :=
      { st with nextEid := e + 1,
                elems := (e, { path := path, createdAt := createdAt }) :: st.elems,
                childrenMap := (e, ([] : List Nat)) :: st.childrenMap,
                activePosts := mapSet st.activePosts path e }
    children.attach.foldl
      (fun s c =>
        let ce := s.nextEid
        let s2 := createNested c.1 s
        { s2 with childrenMap :=
            mapSet s2.childrenMap e ((mapGet s2.childrenMap e).getD [] ++ [ce]) })
      st1
termination_by sizeOf sp
decreasing_by
  have h1 := List.sizeOf_lt_of_mem c.2
  simp only [SPost.mk.sizeOf_spec]
  omega

/-- Truthiness test of the render pass of displayChannelContent: a structured
post is rendered as a root when its parent field is absent or empty. -/
def spParentFalsy (sp : SPost) : Bool :=
  match sp.parentD with
  | none => true
  | some s => s == ""

/-- Render step of displayChannelContent for one structured post: a post with a
falsy parent field is rendered through createNestedPosts and its element
appended to the top-level list; any other post is skipped. -/
def loadStep (s : VState) (sp : SPost) : VState :=
  if spParentFalsy sp then
    let re := s.nextEid
    let s2 := createNested sp s
    { s2 with topLevel := s2.topLevel ++ [re] }
  else s

/-- View.displayChannelContent on the reconciliation state: the content area is
emptied and a fresh ChannelContent installed (empty top-level list), activePosts
is cleared, the structured posts are built, and the render step runs over them.
The reply buffer and the reply cursor are not touched. -/
def displayChannelContent (posts : List PostIn) (st : VState) : VState :=
  let st0 := { st with activePosts := [], topLevel := [] }
  (buildStructured posts).foldl loadStep st0

/-- The sibling-list effect of the placement step of View.insertPost: the
scan followed by insertion before the found entry, or an append when no entry
has a strictly greater date. -/
def insertIntoSiblings (dates : Nat → Nat) (e : Nat) (l : List Nat) : List Nat :=
  match insertScan dates (dates e) l with
  | some q => insertBeforeEid l q.1 e
  | none => l ++ [e]

/-- Specification-worded insertion, following the spec text: scan the list for
the first existing entry with a strictly greater createdAt than the new node
and insert immediately before it; if none is found, append at the end. -/
def specInsertChronological (dates : Nat → Nat) (e : Nat) : List Nat → List Nat
  | [] => [e]
  | x :: rest =>
    if dates e < dates x then e :: x :: rest
    else x :: specInsertChronological dates e rest

/-- Non-decreasing createdAt along a sibling list. -/
abbrev ChronologicalBy (dates : Nat → Nat) (l : List Nat) : Prop :=
  List.Sorted (fun a b => dates a ≤ dates b) l

/-- Observable reconciliation state of the View for the open channel: the
active index and the orphan buffer with each element reference replaced by the
data it renders, plus the reply cursor. -/
structure RecObs where
  activeObs : List (String × Option NodeData)
  bufferObs : List (String × Option NodeData)
  replyCursor : Option String
deriving Repr, DecidableEq

/-- Projection of a reconciliation state to its observable part. -/
def recObs (st : VState) : RecObs :=
  { activeObs := st.activePosts.map (fun pe => (pe.1, mapGet st.elems pe.2)),
    bufferObs := st.replyBuffer.map (fun kv => (kv.1, mapGet st.elems kv.2)),
    replyCursor := st.activeReply }

/-- Well-formed allocation: every stored element key and every buffered element
reference lies below the allocator, as holds in every state reachable from
initState. -/
abbrev EidsBelow (st : VState) : Prop :=
  (∀ p ∈ st.elems, p.1 < st.nextEid) ∧
    (∀ p ∈ st.replyBuffer, p.2 < st.nextEid) ∧
    (∀ p ∈ st.activePosts, p.2 < st.nextEid)

/-- Distinct post identities: the claim hypothesis that each path names one
post. -/
abbrev PathsDistinct (order : List PostIn) : Prop :=
  (order.map (fun u => u.path)).Nodup

/-- Valid parent relation: each effective parent reference names another post
of the set. -/
abbrev ParentsPresent (order : List PostIn) : Prop :=
  ∀ u ∈ order, ∀ q, optNonEmpty u.parentD = some q →
    q ∈ order.map (fun v => v.path)

/-- Forest shape of the parent relation, witnessed by a rank function that
strictly increases from parent to child. -/
abbrev RankOrdered (rank : String → Nat) (order : List PostIn) : Prop :=
  ∀ p ∈ order, ∀ c ∈ order, optNonEmpty c.parentD = some p.path →
    rank p.path < rank c.path

/-- Delivery-order hypothesis of the amended claim: no two distinct posts with
the same parent are both delivered before that parent (the reply buffer keeps
one orphan per missing parent, so a second early orphan would overwrite the
first). -/
abbrev AtMostOneEarlyOrphan (order : List PostIn) : Prop :=
  ∀ i j k, i < j → j < k → k < order.length →
    optNonEmpty (order.getD i default).parentD =
      some ((order.getD k default).path) →
    optNonEmpty (order.getD j default).parentD =
      some ((order.getD k default).path) →
    False

/-- Delivery of a list of creation updates to handleUpdate, in order. -/
def deliverAll (username : String) (order : List PostIn) (st : VState) : VState :=
  order.foldl (fun s u => handleUpdate username u s) st

/-- Concrete post payload used by the closed instances. -/
def samplePost (p : String) (par : Option String) (d : Nat) : PostIn :=
  { path := p, msg := "m", parentD := par, reactions := none, createdAt := d,
    createdBy := "alice" }

/-- Two orphans for the same missing parent followed by the parent itself. -/
def ordersTwoOrphans : List PostIn :=
  [samplePost "c1" (some "p") 5, samplePost "c2" (some "p") 7,
   samplePost "p" none 1]

/-- State after delivering ordersTwoOrphans. -/
def stTwoOrphans : VState := deliverAll "me" ordersTwoOrphans initState

/-- Scenario B delivery: the reply before its parent. -/
def ordersScenB : List PostIn :=
  [samplePost "r1" (some "p1") 5, samplePost "p1" none 1]

/-- State after delivering ordersScenB. -/
def stScenB : VState := deliverAll "me" ordersScenB initState

/-- Channel load input with one root and one reply. -/
def loadRootReply : List PostIn :=
  [samplePost "p1" none 1, samplePost "r1" (some "p1") 5]

/-- State with one pending orphan and an open reply cursor, as left by an
early reply delivery and an opened reply editor. -/
def stWithOrphanAndCursor : VState :=
  { deliverAll "me" [samplePost "r1" (some "p1") 5] initState with
      activeReply := some "p0" }

/-- Banner state after two retriable errors shown in a row, the second within
the countdown of the first. -/
def bannerTwice : BannerState :=
  bannerShowRetriable "e2" "r2" (bannerShowRetriable "e1" "r1" initBanner)

/-- Reaction controls of a freshly rendered post without reactions. -/
def freshButtons : PostButtons := initButtons none "me"

/-- Controls after the user clicks smile on a fresh post. -/
def clickedSmile : PostButtons := (reactClick freshButtons RxKind.smile).1

/-- Stale server reactions reporting the pre-click state: nobody has reacted. -/
def staleEmpty : RxSets :=
  { smile := some [], frown := none, like := none, celebrate := none }

/-- Controls with a pending smile click awaiting confirmation. -/
def pendingSmileButtons : PostButtons :=
  { freshButtons with smile := { count := 0, clicked := false, disabled := true } }

/-- Server reactions confirming the pending smile click of the current user. -/
def serverSmileYes : RxSets :=
  { smile := some ["me"], frown := none, like := none, celebrate := none }

/-- State with one delivered root post, used by the duplicate-display
instance. -/
def stOneRoot : VState := handleUpdate "me" (samplePost "p" none 1) initState

/-- A second creation update for the already indexed path, without a reactions
field. -/
def dupUpdate : PostIn := samplePost "p" none 9

/-- A delivery order satisfying the amended completeness hypotheses: one early
orphan, then its parent, then a sibling arriving after the parent. -/
def ordersValid : List PostIn :=
  [samplePost "c1" (some "p") 5, samplePost "p" none 1,
   samplePost "c2" (some "p") 7]

/-- Rank function witnessing the forest shape of ordersValid. -/
def rankValid (s : String) : Nat := if s = "p" then 0 else 1

/-- Observable active index of a state: each indexed path with the data of the
element it maps to. -/
def activeObsOf (st : VState) : List (String × Option NodeData) :=
  st.activePosts.map (fun pe => (pe.1, mapGet st.elems pe.2))

/-- Observable effect of createNestedPosts on the active index: the path of the
structured post is bound to its data, then the children follow recursively. -/
def activeObsStep (sp : SPost) (acc : List (String × Option NodeData)) :
    List (String × Option NodeData) :=
  match sp with
  | SPost.mk path _ _ d _ _ children =>
    children.attach.foldl (fun a c => activeObsStep c.1 a)
      (mapSet acc path (some { path := path, createdAt := d }))
termination_by sizeOf sp
decreasing_by
  have h1 := List.sizeOf_lt_of_mem c.2
  simp only [SPost.mk.sizeOf_spec]
  omega

/-- Observable effect of the render step on the active index. -/
def loadObsStep (a : List (String × Option NodeData)) (sp : SPost) :
    List (String × Option NodeData) :=
  if spParentFalsy sp then activeObsStep sp a else a

/-- Observable active index produced by a channel load, a function of the
posts alone. -/
def loadActiveObs (posts : List PostIn) : List (String × Option NodeData) :=
  (buildStructured posts).foldl loadObsStep []

/-- One step of the children loop of createNestedPosts: build the child
recursively and append its element to the reply list of the parent element. -/
def cnStep (E : Nat) (children : List SPost) (s : VState)
    (c : {x // x ∈ children}) : VState :=
  let ce := s.nextEid
  let s2 := createNested c.1 s
  { s2 with childrenMap :=
      mapSet s2.childrenMap E ((mapGet s2.childrenMap E).getD [] ++ [ce]) }

/-- Path of the post delivered as the i-th update. -/
def pathAt (done : List PostIn) (i : Nat) : String :=
  (done.getD i default).path

/-- Effective parent reference of the post delivered as the i-th update. -/
def parentPathAt (done : List PostIn) (i : Nat) : Option String :=
  optNonEmpty (done.getD i default).parentD

/-- Active index expected after a delivery prefix: each path bound to the
element allocated for it, in delivery order. -/
def withEids (start : Nat) : List PostIn → List (String × Nat)
  | [] => []
  | u :: rest => (u.path, start) :: withEids (start + 1) rest

/-- Indices of the delivered posts with no effective parent reference, the
expected top-level population of the channel. -/
def rootsIdx (done : List PostIn) (ex : List Nat) : List Nat :=
  (List.range done.length).filter
    (fun i => (parentPathAt done i).isNone && !(ex.contains i))

/-- Indices of the delivered posts whose effective parent reference names the
j-th delivered post, with the indices of ex (detached elements) excluded: the
expected reply list of the j-th element. -/
def childIdx (done : List PostIn) (ex : List Nat) (j : Nat) : List Nat :=
  (List.range done.length).filter
    (fun i => decide (parentPathAt done i = some (pathAt done j)) &&
      !(ex.contains i))

/-- Invariant of the reconciliation state after delivering the prefix done of
creation updates, relative to the list pend of elements that are indexed but
still detached (buffered orphans awaiting the arrival of their parents). -/
structure DeliveryInv (done : List PostIn) (pend : List Nat) (st : VState) :
    Prop where
  hNext : st.nextEid = done.length
  hActive : st.activePosts = withEids 0 done
  hElem : ∀ i, i < done.length →
    mapGet st.elems i = some (nodeDataOf (done.getD i default))
  hElemKeys : ∀ p ∈ st.elems, p.1 < done.length
  hChildKeys : st.childrenMap.map (fun kl => kl.1) = (List.range done.length).reverse
  hTop : st.topLevel.Perm (rootsIdx done [])
  hChild : ∀ j, j < done.length →
    ((mapGet st.childrenMap j).getD []).Perm (childIdx done pend j)
  hPendSub : ∀ i ∈ pend, i < done.length
  hPendNodup : pend.Nodup
  hPendParent : ∀ i ∈ pend, parentPathAt done i ≠ none
  hAttachedPar : ∀ i, i < done.length → i ∉ pend → ∀ k,
    parentPathAt done i = some k → k ∈ done.map (fun u => u.path)
  hPendBuffer : ∀ i ∈ pend, ∀ k, parentPathAt done i = some k →
    mapGet st.replyBuffer k = some i
  hPendChain : ∀ i ∈ pend, ∀ j, j < done.length → ∀ k,
    parentPathAt done i = some k → pathAt done j = k → j ∈ pend
  hBufValid : ∀ kv ∈ st.replyBuffer, kv.2 < done.length ∧
    parentPathAt done kv.2 = some kv.1
  hBufKeys : (st.replyBuffer.map (fun kv => kv.1)).Nodup
  hBufPend : ∀ kv ∈ st.replyBuffer, kv.2 ∉ pend →
    ∃ j, j < done.length ∧ pathAt done j = kv.1 ∧ j ∉ pend

/-- Invariant holding in the middle of the splice cascade of View.insertPost:
the element e has been detached from no list yet (it is about to be placed
under parent), the list pend holds the still-buffered elements, and buf is the
recursion's view of the reply buffer with the entries of the already spliced
chain elements extracted. -/
structure CascadeInv (D : List PostIn) (pend : List Nat) (st : VState)
    (e : Nat) (parent : Option Nat) (buf : List (String × Nat)) : Prop where
  hNext : st.nextEid = D.length
  hActive : st.activePosts = withEids 0 D
  hElem : ∀ i, i < D.length →
    mapGet st.elems i = some (nodeDataOf (D.getD i default))
  hElemKeys : ∀ p ∈ st.elems, p.1 < D.length
  hChildKeys : st.childrenMap.map (fun kl => kl.1) = (List.range D.length).reverse
  hTop : st.topLevel.Perm (rootsIdx D (e :: pend))
  hChild : ∀ j, j < D.length →
    ((mapGet st.childrenMap j).getD []).Perm (childIdx D (e :: pend) j)
  hE : e < D.length
  hENotPend : e ∉ pend
  hEparent : match parent with
    | none => parentPathAt D e = none
    | some pe => pe < D.length ∧ parentPathAt D e = some (pathAt D pe)
  hPendSub : ∀ i ∈ pend, i < D.length
  hPendNodup : pend.Nodup
  hPendParent : ∀ i ∈ pend, parentPathAt D i ≠ none
  hAttachedPar : ∀ i, i < D.length → i ∉ pend → i ≠ e → ∀ k,
    parentPathAt D i = some k → k ∈ D.map (fun u => u.path)
  hPendBuffer : ∀ i ∈ pend, ∀ k, parentPathAt D i = some k →
    mapGet st.replyBuffer k = some i
  hPendChain : ∀ i ∈ pend, ∀ j, j < D.length → ∀ k,
    parentPathAt D i = some k → pathAt D j = k → j ∈ pend ∨ j = e
  hBufValid : ∀ kv ∈ st.replyBuffer, kv.2 < D.length ∧
    parentPathAt D kv.2 = some kv.1
  hBufKeys : (st.replyBuffer.map (fun kv => kv.1)).Nodup
  hBufPend : ∀ kv ∈ st.replyBuffer, kv.2 ∉ pend →
    ∃ j, j < D.length ∧ pathAt D j = kv.1 ∧ j ∉ pend ∧ j ≠ e
  hBufSub : buf.Sublist st.replyBuffer
  hBufExtract : ∀ i ∈ pend, ∀ k, parentPathAt D i = some k →
    mapGet buf k = some i

/-- Children of the node j in the canonical forest induced by a parent
function on the indices below n. -/
def chlF (par : Nat → Option Nat) (n j : Nat) : List Nat :=
  (List.range n).filter (fun c => par c = some j)

/-- Fuel-bounded listing of the canonical subtree below a node, the reference
shape of subtreeFlatten. -/
def descF (par : Nat → Option Nat) (n : Nat) : Nat → Nat → List Nat
  | 0, e => [e]
  | fuel + 1, e => e :: ((chlF par n e).map (descF par n fuel)).flatten

/-- Level sets of the canonical forest: the roots, then the children of the
previous level. -/
def levelF (par : Nat → Option Nat) (n : Nat) : Nat → List Nat
  | 0 => (List.range n).filter (fun c => (par c).isNone)
  | k + 1 => (List.range n).filter (fun c =>
      match par c with
      | some j => (levelF par n k).contains j
      | none => false)

/-- Index of the post named by the effective parent reference of the i-th
delivered post. -/
def parIdx (order : List PostIn) (i : Nat) : Option Nat :=
  match parentPathAt order i with
  | none => none
  | some k => (List.range order.length).find? (fun j => pathAt order j = k)

/-! Theorems. -/

theorem jsArrayHasProp_parent (u : PostIn) :
    jsArrayHasProp (docKeys u) "parent" = false := by
  rcases u with ⟨p, m, pd, rx, d, b⟩
  cases pd <;> cases rx <;> simp only [docKeys] <;> decide

theorem createNested_nil (path : String) (pd : Option String) (r : Option RxSets)
    (d : Nat) (b m : String) (st : VState) :
    createNested (SPost.mk path pd r d b m []) st =
      { st with nextEid := st.nextEid + 1,
                elems := (st.nextEid, { path := path, createdAt := d }) :: st.elems,
                childrenMap := (st.nextEid, ([] : List Nat)) :: st.childrenMap,
                activePosts := mapSet st.activePosts path st.nextEid } := by
  rw [createNested]
  simp

theorem c2_reply_not_indexed_bug :
    (displayChannelContent loadRootReply initState).activePosts.length = 1 ∧
    loadRootReply.length = 2 ∧
    mapGet (displayChannelContent loadRootReply initState).activePosts "r1" = none ∧
    (displayChannelContent loadRootReply initState).activePosts = [("p1", 0)] := by
  refine ⟨?_, by decide, ?_, ?_⟩ <;>
    simp [displayChannelContent, buildStructured, loadRootReply, samplePost,
      jsArrayHasProp, docKeys, arrayProtoKeys, attachToParent, spParentFalsy,
      createNested_nil, mapSet, mapGet, initState, List.foldl, SPost.parentD,
      SPost.path, SPost.children, SPost.createdAt, loadStep]

theorem c9_stale_timer_bug :
    (0, "e1") ∈ bannerTwice.pendingTimers ∧
    (∀ l ∈ bannerTwice.listeners, l.gen = some 2) ∧
    (fireTimer 0 bannerTwice).dispatched = ["e1"] := by
  decide

theorem c3_counterexample_buffer_entry_persists :
    childrenOf stScenB 1 = [0] ∧ pathOfEid stScenB 0 = "r1" ∧
    pathOfEid stScenB 1 = "p1" ∧
    mapGet stScenB.replyBuffer "p1" = some 0 ∧
    stScenB.replyBuffer ≠ [] := by
  decide

theorem c1_counterexample_two_orphans_same_parent :
    PathsDistinct ordersTwoOrphans ∧ ParentsPresent ordersTwoOrphans ∧
    stTwoOrphans.activePosts.length = 3 ∧
    mapGet stTwoOrphans.activePosts "c1" = some 0 ∧
    displayedPosts stTwoOrphans 3 = [2, 1] ∧
    0 ∉ displayedPosts stTwoOrphans 3 := by
  refine ⟨by decide, ?_, by decide, by decide, by decide, by decide⟩
  intro u hu q hq
  fin_cases hu <;> simp_all [optNonEmpty, samplePost, ordersTwoOrphans]

theorem c7_counterexample_buffer_survives_switch :
    (displayChannelContent [samplePost "q" none 3] stWithOrphanAndCursor).replyBuffer =
      [("p1", 0)] ∧
    (displayChannelContent [samplePost "q" none 3] stWithOrphanAndCursor).replyBuffer ≠ [] ∧
    (displayChannelContent [samplePost "q" none 3] stWithOrphanAndCursor).activeReply =
      some "p0" := by
  refine ⟨?_, ?_, ?_⟩ <;>
    simp [displayChannelContent, buildStructured, samplePost,
      jsArrayHasProp, docKeys, arrayProtoKeys, attachToParent, spParentFalsy,
      createNested_nil, mapSet, mapGet, stWithOrphanAndCursor, deliverAll,
      handleUpdate, allocElem, optNonEmpty, initState, List.foldl, SPost.parentD,
      SPost.path, SPost.children, SPost.createdAt, loadStep]

theorem c6_counterexample_stale_patch :
    clickedSmile.smile.count = 0 ∧
    clickedSmile.smile.disabled = true ∧
    clickedSmile.smile.count ≠ 1 ∧
    (updatePostReactions staleEmpty "me" clickedSmile).smile.count = 0 ∧
    (updatePostReactions staleEmpty "me" clickedSmile).smile.count ≠ 1 ∧
    (updatePostReactions staleEmpty "me" clickedSmile).smile.disabled = true := by
  decide

theorem mapGet_mapSet_self {α β : Type} [DecidableEq α] (m : List (α × β))
    (k : α) (v : β) : mapGet (mapSet m k v) k = some v := by
  induction m with
  | nil => simp [mapSet, mapGet]
  | cons hd tl ih =>
    by_cases hk : hd.1 = k
    · simp [mapSet, mapGet, hk]
    · simp [mapSet, mapGet, hk, ih]

theorem mapGet_mapSet_ne {α β : Type} [DecidableEq α] (m : List (α × β))
    (k k2 : α) (v : β) (h : k2 ≠ k) :
    mapGet (mapSet m k v) k2 = mapGet m k2 := by
  induction m with
  | nil => simp [mapSet, mapGet, Ne.symm h]
  | cons hd tl ih =>
    by_cases hk : hd.1 = k
    · subst hk
      simp [mapSet, mapGet, Ne.symm h]
    · simp only [mapSet, if_neg hk]
      by_cases hk2 : hd.1 = k2
      · simp [mapGet, hk2]
      · simp [mapGet, hk2, ih]

theorem mem_insertBeforeEid (l : List Nat) (x e y : Nat) :
    y ∈ insertBeforeEid l x e ↔ y = e ∨ y ∈ l := by
  induction l with
  | nil => simp [insertBeforeEid]
  | cons hd tl ih =>
    by_cases hx : hd = x
    · simp [insertBeforeEid, hx]
    · simp [insertBeforeEid, hx, ih]
      tauto

theorem insertBeforeEid_perm (l : List Nat) (x e : Nat) :
    (insertBeforeEid l x e).Perm (e :: l) := by
  induction l with
  | nil => simp [insertBeforeEid]
  | cons hd tl ih =>
    by_cases hx : hd = x
    · simp [insertBeforeEid, hx]
    · simp only [insertBeforeEid, if_neg hx]
      exact (ih.cons hd).trans (List.Perm.swap e hd tl)

theorem placeElem_fields (st : VState) (e : Nat) (parent : Option Nat) :
    (placeElem st e parent).nextEid = st.nextEid ∧
    (placeElem st e parent).elems = st.elems ∧
    (placeElem st e parent).activePosts = st.activePosts ∧
    (placeElem st e parent).replyBuffer = st.replyBuffer ∧
    (placeElem st e parent).activeReply = st.activeReply := by
  cases parent with
  | none =>
    cases hscan : insertScan (dateOfEid st) (dateOfEid st e) (currentList st none) <;>
      simp [placeElem, hscan, writeBack, detachAll]
  | some pe =>
    cases hscan : insertScan (dateOfEid st) (dateOfEid st e) (currentList st (some pe)) <;>
      simp [placeElem, hscan, writeBack, detachAll]

theorem insertPostFuel_fields (fuel : Nat) (buf : List (String × Nat)) (e : Nat)
    (parent : Option Nat) (st : VState) :
    (insertPostFuel fuel buf e parent st).nextEid = st.nextEid ∧
    (insertPostFuel fuel buf e parent st).elems = st.elems ∧
    (insertPostFuel fuel buf e parent st).activePosts = st.activePosts ∧
    (insertPostFuel fuel buf e parent st).replyBuffer = st.replyBuffer ∧
    (insertPostFuel fuel buf e parent st).activeReply = st.activeReply := by
  induction fuel generalizing buf e parent st with
  | zero => simpa [insertPostFuel] using placeElem_fields st e parent
  | succ n ih =>
    have h1 := placeElem_fields st e parent
    simp only [insertPostFuel]
    cases hex : extractKey buf (pathOfEid (placeElem st e parent) e) with
    | none => exact h1
    | some vrest =>
      have h2 := ih vrest.2 vrest.1 (some e) (placeElem st e parent)
      exact ⟨h2.1.trans h1.1, h2.2.1.trans h1.2.1, h2.2.2.1.trans h1.2.2.1,
        h2.2.2.2.1.trans h1.2.2.2.1, h2.2.2.2.2.trans h1.2.2.2.2⟩

theorem renderKind_merge (pre : RxButton) (o : Option (List String))
    (user : String) :
    MergeSpec pre o user
      (renderKind pre (kindStats o user).1 (kindStats o user).2) := by
  rcases pre with ⟨cnt, clk, dis⟩
  cases o with
  | none => cases clk <;> cases dis <;> simp [MergeSpec, renderKind, kindStats]
  | some l =>
    by_cases hm : user ∈ l <;> cases clk <;> cases dis <;>
      simp [MergeSpec, renderKind, kindStats, hm]

/-- C5: a reaction merge (updateReactions followed by renderReactions) sets,
for each of the four kinds, the displayed count to the size of the server set
(0 when absent) and the displayed membership to membership of the current
user; a pending control whose displayed membership disagrees with the server
value is re-enabled, and otherwise count and membership are set without
changing the pending state. -/
theorem c5_reaction_merge (b : PostButtons) (r : RxSets) (user : String) :
    MergeSpec b.smile r.smile user (updatePostReactions r user b).smile ∧
    MergeSpec b.frown r.frown user (updatePostReactions r user b).frown ∧
    MergeSpec b.like r.like user (updatePostReactions r user b).like ∧
    MergeSpec b.celebrate r.celebrate user (updatePostReactions r user b).celebrate := by
  refine ⟨?_, ?_, ?_, ?_⟩ <;>
    · simp only [updatePostReactions, renderReactions]
      exact renderKind_merge ..

/-- C5 instance: a pending smile click confirmed by the server adopts the
server membership, shows its count, and re-enables the control. -/
theorem c5_witness :
    MergeSpec pendingSmileButtons.smile serverSmileYes.smile "me"
      (updatePostReactions serverSmileYes "me" pendingSmileButtons).smile :=
  (c5_reaction_merge pendingSmileButtons serverSmileYes "me").1

/-- C6 amended: a reaction click changes neither the displayed count nor the
displayed membership, it only disables the control (pending) and dispatches the
pre-click membership; a server patch whose membership agrees with the displayed
membership (in particular a stale patch reporting the pre-click state) sets the
displayed count to the server count and leaves the control pending. -/
theorem c6_amended_pending_click (b : PostButtons) (user : String) (r : RxSets) :
    (reactClick b RxKind.smile).1.smile.count = b.smile.count ∧
    (reactClick b RxKind.smile).1.smile.clicked = b.smile.clicked ∧
    (reactClick b RxKind.smile).1.smile.disabled = true ∧
    (reactClick b RxKind.smile).2 = b.smile.clicked ∧
    (b.smile.clicked = (r.smile.getD []).contains user →
      (updatePostReactions r user (reactClick b RxKind.smile).1).smile.count =
        (r.smile.getD []).length ∧
      (updatePostReactions r user (reactClick b RxKind.smile).1).smile.disabled =
        true) := by
  rcases b with ⟨bs, bf, bl, bc⟩
  refine ⟨by simp [reactClick, getBtn, setBtn], by simp [reactClick, getBtn, setBtn],
    by simp [reactClick, getBtn, setBtn], by simp [reactClick, getBtn, setBtn], ?_⟩
  intro hagree
  cases r with
  | mk os oof ol oc =>
    cases os with
    | none =>
      simp only [Option.getD] at hagree ⊢
      simp [reactClick, getBtn, setBtn, updatePostReactions, renderReactions,
        renderKind, kindStats, hagree]
    | some ls =>
      simp only [Option.getD] at hagree ⊢
      simp [reactClick, getBtn, setBtn, updatePostReactions, renderReactions,
        renderKind, kindStats, hagree]

/-- C6 amended instance: on a fresh post, the click leaves count 0 displayed
and a stale empty patch keeps count 0 with the control still pending. -/
theorem c6_amended_witness :
    (updatePostReactions staleEmpty "me" clickedSmile).smile.count = 0 ∧
    (updatePostReactions staleEmpty "me" clickedSmile).smile.disabled = true := by
  have h := (c6_amended_pending_click freshButtons "me" staleEmpty).2.2.2.2 (by decide)
  exact ⟨h.1.trans (by decide), h.2⟩

/-- C8: for a non-disabled item, an Enter or mouse submission is rejected with
an inline error exactly when the name is empty, equals a single or double dot,
or contains a slash, backslash, or double quote; every non-empty invalid name
shows the invalid-character message; a rejection never dispatches; and an
accepted name dispatches the create event of the container type. -/
theorem c8_name_validation (t : ContainerType) (pn : String) (value : String)
    (ev : SubmitEventKind)
    (hev : ev = SubmitEventKind.enterKey ∨ ev = SubmitEventKind.mouse) :
    ((∃ msg, submitOutcome t pn false value ev = SubmitOutcome.errorShown msg) ↔
      (value = "" ∨ value.data.contains (Char.ofNat 47) = true ∨ value = "." ∨
        value = ".." ∨ value.data.contains (Char.ofNat 92) = true ∨
        value.data.contains (Char.ofNat 34) = true)) ∧
    (value ≠ "" → badName value = true →
      submitOutcome t pn false value ev = SubmitOutcome.errorShown invalidNameMsg) ∧
    (∀ msg, submitOutcome t pn false value ev = SubmitOutcome.errorShown msg →
      ∀ n w c, submitOutcome t pn false value ev ≠ SubmitOutcome.dispatched n w c) ∧
    (¬(value = "" ∨ badName value = true) →
      submitOutcome t pn false value ev =
        (match t with
         | ContainerType.workspace =>
           SubmitOutcome.dispatched "createWorkspaceEvent" value ""
         | ContainerType.channel =>
           SubmitOutcome.dispatched "createChannelEvent" pn value)) := by
  have hbad : badName value = true ↔
      (value.data.contains (Char.ofNat 47) = true ∨ value = "." ∨ value = ".." ∨
        value.data.contains (Char.ofNat 92) = true ∨
        value.data.contains (Char.ofNat 34) = true) := by
    simp [badName]
    tauto
  rcases hev with h | h <;> subst h <;>
    by_cases hv : value = "" <;> by_cases hb : badName value = true <;>
      cases t <;>
        simp_all [submitOutcome]

/-- C8 instance, Scenario D: the workspace name consisting of a single slash is
rejected with the invalid-character message and nothing is dispatched. -/
theorem c8_witness :
    submitOutcome ContainerType.workspace "" false "/" SubmitEventKind.enterKey =
      SubmitOutcome.errorShown invalidNameMsg ∧
    (∀ n w c, submitOutcome ContainerType.workspace "" false "/"
      SubmitEventKind.enterKey ≠ SubmitOutcome.dispatched n w c) := by
  have h := c8_name_validation ContainerType.workspace "" "/"
    SubmitEventKind.enterKey (Or.inl rfl)
  have he := h.2.1 (by decide) (by decide)
  exact ⟨he, h.2.2.1 invalidNameMsg he⟩

theorem mapGet_map_value {α β γ : Type} [DecidableEq α] (m : List (α × β))
    (f : β → γ) (k : α) :
    mapGet (m.map (fun kl => (kl.1, f kl.2))) k = (mapGet m k).map f := by
  induction m with
  | nil => simp [mapGet]
  | cons hd tl ih =>
    by_cases hk : hd.1 = k
    · simp [mapGet, hk]
    · simp [mapGet, hk, ih]

theorem currentList_detachAll (st : VState) (e : Nat) (parent : Option Nat) :
    currentList (detachAll st e) parent =
      (currentList st parent).filter (fun y => y != e) := by
  cases parent with
  | none => simp [currentList, detachAll]
  | some pe =>
    simp only [currentList, detachAll, mapGet_map_value]
    cases mapGet st.childrenMap pe <;> simp

theorem currentList_writeBack_self (st : VState) (parent : Option Nat)
    (l : List Nat) : currentList (writeBack st parent l) parent = l := by
  cases parent with
  | none => simp [currentList, writeBack]
  | some pe => simp [currentList, writeBack, mapGet_mapSet_self]

theorem currentList_placeElem_self (st : VState) (e : Nat) (parent : Option Nat) :
    (currentList (placeElem st e parent) parent).Perm
      (e :: (currentList st parent).filter (fun y => y != e)) := by
  rw [placeElem]
  cases hscan : insertScan (dateOfEid st) (dateOfEid st e) (currentList st parent) with
  | none =>
    rw [currentList_writeBack_self, currentList_detachAll]
    exact List.perm_append_singleton e _
  | some q =>
    rw [currentList_writeBack_self, currentList_detachAll]
    exact insertBeforeEid_perm _ q.1 e

theorem pathOfEid_alloc_self (u : PostIn) (st : VState) :
    pathOfEid (allocElem u st) st.nextEid = u.path := by
  simp [allocElem, pathOfEid, mapGet, nodeDataOf]

theorem insertPost_no_splice (buf : List (String × Nat)) (e : Nat)
    (parent : Option Nat) (st : VState)
    (h : extractKey buf (pathOfEid st e) = none) :
    insertPost buf e parent st = placeElem st e parent := by
  have hpath : pathOfEid (placeElem st e parent) e = pathOfEid st e := by
    rw [pathOfEid, (placeElem_fields st e parent).2.1, pathOfEid]
  cases buf with
  | nil => simp [insertPost, insertPostFuel]
  | cons hd tl =>
    simp only [insertPost, List.length_cons, insertPostFuel, hpath, h]

/-- C10: a second creation update for an already indexed path whose doc lacks a
reactions field is not treated as a patch of the existing post: a fresh element
is built for the same path, the active-index entry is replaced by the fresh
element, and the fresh element is inserted at top level while the previously
inserted element for that path remains in place, so the post is displayed
twice. -/
theorem c10_duplicate_display (user : String) (st : VState) (u : PostIn)
    (e : Nat) (de : NodeData)
    (hidx : mapGet st.activePosts u.path = some e)
    (helem : mapGet st.elems e = some de)
    (hne : e ≠ st.nextEid)
    (hrx : u.reactions = none)
    (hpar : optNonEmpty u.parentD = none)
    (htop : e ∈ st.topLevel)
    (hbuf : extractKey st.replyBuffer u.path = none) :
    mapGet (handleUpdate user u st).activePosts u.path = some st.nextEid ∧
    st.nextEid ≠ e ∧
    e ∈ (handleUpdate user u st).topLevel ∧
    st.nextEid ∈ (handleUpdate user u st).topLevel ∧
    mapGet (handleUpdate user u st).elems e = some de ∧
    mapGet (handleUpdate user u st).elems st.nextEid = some (nodeDataOf u) := by
  have hres : handleUpdate user u st = placeElem (allocElem u st) st.nextEid none := by
    rw [handleUpdate, if_neg (by rw [hidx, hrx]; simp)]
    simp only [hpar]
    apply insertPost_no_splice
    rw [pathOfEid_alloc_self]
    exact hbuf
  have hfields := placeElem_fields (allocElem u st) st.nextEid none
  have htl : ∀ y, y ∈ (placeElem (allocElem u st) st.nextEid none).topLevel ↔
      y = st.nextEid ∨ y ∈ st.topLevel.filter (fun z => z != st.nextEid) := by
    intro y
    have hperm := currentList_placeElem_self (allocElem u st) st.nextEid none
    have hmem : y ∈ (placeElem (allocElem u st) st.nextEid none).topLevel ↔
        y ∈ st.nextEid ::
          (currentList (allocElem u st) none).filter (fun z => z != st.nextEid) :=
      hperm.mem_iff
    simp only [currentList] at hmem
    rw [hmem]
    simp [allocElem]
  rw [hres]
  refine ⟨?_, hne.symm, ?_, ?_, ?_, ?_⟩
  · rw [hfields.2.2.1]
    exact mapGet_mapSet_self st.activePosts u.path st.nextEid
  · rw [htl]
    right
    simp [List.mem_filter, htop, hne]
  · rw [htl]
    left
    rfl
  · rw [hfields.2.1]
    show mapGet ((st.nextEid, nodeDataOf u) :: st.elems) e = some de
    simp [mapGet, Ne.symm hne, helem]
  · rw [hfields.2.1]
    show mapGet ((st.nextEid, nodeDataOf u) :: st.elems) st.nextEid =
      some (nodeDataOf u)
    simp [mapGet]

/-- C10 instance: a duplicate creation update for path p on a state with that
path already displayed yields two displayed elements for the path. -/
theorem c10_witness :
    mapGet (handleUpdate "me" dupUpdate stOneRoot).activePosts "p" =
      some stOneRoot.nextEid ∧
    0 ∈ (handleUpdate "me" dupUpdate stOneRoot).topLevel ∧
    stOneRoot.nextEid ∈ (handleUpdate "me" dupUpdate stOneRoot).topLevel := by
  have h := c10_duplicate_display "me" stOneRoot dupUpdate 0
    { path := "p", createdAt := 1 } (by decide) (by decide) (by decide)
    (by decide) (by decide) (by decide) (by decide)
  exact ⟨h.1, h.2.2.1, h.2.2.2.1⟩

/-- C3 amended: a reply delivered before its parent is held in the orphan
buffer keyed by the parent path and stays detached; when the parent arrives it
is inserted and the buffered child is recursively inserted under it, appearing
as its child; the entry is not removed from the orphan buffer. -/
theorem c3_amended_orphan_splice (pc pp user a1 a2 m1 m2 : String) (dc dp : Nat)
    (rc rp : Option RxSets) (hne : pc ≠ pp) (hpp : pp ≠ "") :
    mapGet (handleUpdate user ⟨pc, m1, some pp, rc, dc, a1⟩ initState).replyBuffer
      pp = some 0 ∧
    (handleUpdate user ⟨pc, m1, some pp, rc, dc, a1⟩ initState).topLevel = [] ∧
    childrenOf (handleUpdate user ⟨pc, m1, some pp, rc, dc, a1⟩ initState) 0 = [] ∧
    (handleUpdate user ⟨pp, m2, none, rp, dp, a2⟩
      (handleUpdate user ⟨pc, m1, some pp, rc, dc, a1⟩ initState)).topLevel = [1] ∧
    childrenOf (handleUpdate user ⟨pp, m2, none, rp, dp, a2⟩
      (handleUpdate user ⟨pc, m1, some pp, rc, dc, a1⟩ initState)) 1 = [0] ∧
    mapGet (handleUpdate user ⟨pp, m2, none, rp, dp, a2⟩
      (handleUpdate user ⟨pc, m1, some pp, rc, dc, a1⟩ initState)).replyBuffer pp =
      some 0 := by
  have h1 : handleUpdate user ⟨pc, m1, some pp, rc, dc, a1⟩ initState =
      { nextEid := 1, elems := [(0, ⟨pc, dc⟩)], activePosts := [(pc, 0)],
        replyBuffer := [(pp, 0)], topLevel := [], childrenMap := [(0, [])],
        activeReply := none } := by
    rw [handleUpdate]
    simp [initState, mapGet, allocElem, optNonEmpty, hpp, mapSet, hne,
      Ne.symm hne, nodeDataOf]
  rw [h1]
  have h2 : handleUpdate user ⟨pp, m2, none, rp, dp, a2⟩
      ({ nextEid := 1, elems := [(0, ⟨pc, dc⟩)], activePosts := [(pc, 0)],
         replyBuffer := [(pp, 0)], topLevel := [], childrenMap := [(0, [])],
         activeReply := none } : VState) =
      { nextEid := 2, elems := [(1, ⟨pp, dp⟩), (0, ⟨pc, dc⟩)],
        activePosts := [(pc, 0), (pp, 1)], replyBuffer := [(pp, 0)],
        topLevel := [1], childrenMap := [(1, [0]), (0, [])],
        activeReply := none } := by
    rw [handleUpdate]
    simp [mapGet, hne, allocElem, optNonEmpty, mapSet, nodeDataOf, insertPost,
      insertPostFuel, placeElem, currentList, writeBack, detachAll, insertScan,
      pathOfEid, extractKey, dateOfEid, Ne.symm hne]
  rw [h2]
  simp [mapGet, childrenOf]

/-- C3 amended instance: Scenario B data. -/
theorem c3_amended_witness :
    mapGet stScenB.replyBuffer "p1" = some 0 ∧ childrenOf stScenB 1 = [0] := by
  have h := c3_amended_orphan_splice "r1" "p1" "me" "alice" "alice" "m" "m" 5 1
    none none (by decide) (by decide)
  exact ⟨h.2.2.2.2.2, h.2.2.2.2.1⟩

theorem insertScan_found {dates : Nat → Nat} {d : Nat} :
    ∀ (l : List Nat) (acc q : Option (Nat × Nat)),
      l.foldl
        (fun acc x =>
          let dd := dates x
          match acc with
          | none => if d < dd then some (x, dd) else none
          | some q2 => if d < dd ∧ dd < q2.2 then some (x, dd) else some q2)
        acc = q →
      q = acc ∨ ∃ p, q = some p ∧ d < p.2 ∧ p.2 = dates p.1 ∧ p.1 ∈ l := by
  intro l
  induction l with
  | nil => intro acc q h; exact Or.inl h.symm
  | cons x rest ih =>
    intro acc q h
    rw [List.foldl_cons] at h
    rcases ih _ _ h with h1 | ⟨p, hp, hd, hdp, hmem⟩
    · cases acc with
      | none =>
        simp only [] at h1
        by_cases hlt : d < dates x
        · rw [if_pos hlt] at h1
          exact Or.inr ⟨(x, dates x), h1, hlt, rfl, List.mem_cons_self x rest⟩
        · rw [if_neg hlt] at h1
          exact Or.inl h1
      | some a =>
        simp only [] at h1
        by_cases hlt : d < dates x ∧ dates x < a.2
        · rw [if_pos hlt] at h1
          exact Or.inr ⟨(x, dates x), h1, hlt.1, rfl, List.mem_cons_self x rest⟩
        · rw [if_neg hlt] at h1
          exact Or.inl h1
    · exact Or.inr ⟨p, hp, hd, hdp, List.mem_cons_of_mem x hmem⟩

theorem insertScan_some_spec {dates : Nat → Nat} {d : Nat} {l : List Nat}
    {q : Nat × Nat} (h : insertScan dates d l = some q) :
    d < q.2 ∧ q.2 = dates q.1 ∧ q.1 ∈ l := by
  rcases insertScan_found l none (some q) h with h1 | ⟨p, hp, hd, hdp, hmem⟩
  · exact absurd h1 (by simp)
  · obtain rfl : q = p := by simpa using hp
    exact ⟨hd, hdp, hmem⟩

theorem insertScan_keeps {dates : Nat → Nat} {d : Nat} {q : Nat × Nat} :
    ∀ (l : List Nat), (∀ y ∈ l, ¬dates y < q.2) →
      l.foldl
        (fun acc x =>
          let dd := dates x
          match acc with
          | none => if d < dd then some (x, dd) else none
          | some q2 => if d < dd ∧ dd < q2.2 then some (x, dd) else some q2)
        (some q) = some q := by
  intro l
  induction l with
  | nil => intro h; rfl
  | cons x rest ih =>
    intro h
    rw [List.foldl_cons]
    have hx : ¬(d < dates x ∧ dates x < q.2) := by
      intro hc
      exact h x (List.mem_cons_self x rest) hc.2
    simp only [if_neg hx]
    exact ih (fun y hy => h y (List.mem_cons_of_mem x hy))

theorem insertScan_cons_lt {dates : Nat → Nat} {d : Nat} {x : Nat}
    {rest : List Nat} (hlt : d < dates x)
    (hall : ∀ y ∈ rest, dates x ≤ dates y) :
    insertScan dates d (x :: rest) = some (x, dates x) := by
  rw [insertScan, List.foldl_cons]
  simp only [if_pos hlt]
  exact insertScan_keeps rest (fun y hy => not_lt.mpr (hall y hy))

theorem insertScan_cons_ge {dates : Nat → Nat} {d : Nat} {x : Nat}
    {rest : List Nat} (hge : ¬d < dates x) :
    insertScan dates d (x :: rest) = insertScan dates d rest := by
  rw [insertScan, List.foldl_cons]
  simp only [if_neg hge]
  rfl

theorem mem_specInsertChronological (dates : Nat → Nat) (e y : Nat) :
    ∀ (l : List Nat), y ∈ specInsertChronological dates e l ↔ y = e ∨ y ∈ l := by
  intro l
  induction l with
  | nil => simp [specInsertChronological]
  | cons x rest ih =>
    by_cases hlt : dates e < dates x
    · simp [specInsertChronological, hlt]
    · simp [specInsertChronological, hlt, ih]
      tauto

theorem specInsertChronological_sorted (dates : Nat → Nat) (e : Nat) :
    ∀ (l : List Nat), ChronologicalBy dates l →
      ChronologicalBy dates (specInsertChronological dates e l) := by
  intro l
  induction l with
  | nil =>
    intro _
    simp [specInsertChronological, ChronologicalBy]
  | cons x rest ih =>
    intro hs
    rw [ChronologicalBy, List.sorted_cons] at hs
    by_cases hlt : dates e < dates x
    · rw [specInsertChronological, if_pos hlt, ChronologicalBy, List.sorted_cons]
      constructor
      · intro b hb
        rcases List.mem_cons.mp hb with rfl | hb2
        · exact le_of_lt hlt
        · exact le_of_lt (lt_of_lt_of_le hlt (hs.1 b hb2))
      · rw [List.sorted_cons]
        exact hs
    · rw [specInsertChronological, if_neg hlt, ChronologicalBy, List.sorted_cons]
      constructor
      · intro b hb
        rcases (mem_specInsertChronological dates e b rest).mp hb with rfl | hb2
        · exact not_lt.mp hlt
        · exact hs.1 b hb2
      · exact ih hs.2

theorem insertIntoSiblings_eq_spec (dates : Nat → Nat) (e : Nat) :
    ∀ (l : List Nat), ChronologicalBy dates l →
      insertIntoSiblings dates e l = specInsertChronological dates e l := by
  intro l
  induction l with
  | nil => intro _; rfl
  | cons x rest ih =>
    intro hs
    rw [ChronologicalBy, List.sorted_cons] at hs
    by_cases hlt : dates e < dates x
    · rw [insertIntoSiblings, insertScan_cons_lt hlt hs.1]
      simp [specInsertChronological, if_pos hlt, insertBeforeEid]
    · have hcons := @insertScan_cons_ge dates (dates e) x rest hlt
      cases hscan : insertScan dates (dates e) rest with
      | none =>
        have h3 : insertIntoSiblings dates e (x :: rest) = (x :: rest) ++ [e] := by
          rw [insertIntoSiblings, hcons, hscan]
        have h4 : insertIntoSiblings dates e rest = rest ++ [e] := by
          rw [insertIntoSiblings, hscan]
        rw [h3]
        simp only [specInsertChronological, if_neg hlt, ← ih hs.2, h4,
          List.cons_append]
      | some q =>
        have hspec := insertScan_some_spec hscan
        have hqx : x ≠ q.1 := fun heq =>
          hlt (by rw [heq, ← hspec.2.1]; exact hspec.1)
        have h3 : insertIntoSiblings dates e (x :: rest) =
            insertBeforeEid (x :: rest) q.1 e := by
          rw [insertIntoSiblings, hcons, hscan]
        have h4 : insertIntoSiblings dates e rest = insertBeforeEid rest q.1 e := by
          rw [insertIntoSiblings, hscan]
        rw [h3]
        simp only [specInsertChronological, if_neg hlt, ← ih hs.2, h4,
          insertBeforeEid, if_neg hqx]

theorem filter_ne_of_not_mem (l : List Nat) (e : Nat) (h : e ∉ l) :
    l.filter (fun y => y != e) = l := by
  apply List.filter_eq_self.mpr
  intro y hy
  simp only [bne_iff_ne, ne_eq, decide_eq_true_eq]
  intro heq
  exact h (heq ▸ hy)

theorem currentList_placeElem_fresh (st : VState) (e : Nat) (parent : Option Nat)
    (h : e ∉ currentList st parent) :
    currentList (placeElem st e parent) parent =
      insertIntoSiblings (dateOfEid st) e (currentList st parent) := by
  rw [placeElem]
  cases hscan : insertScan (dateOfEid st) (dateOfEid st e) (currentList st parent) with
  | none =>
    rw [currentList_writeBack_self, currentList_detachAll,
      filter_ne_of_not_mem _ _ h, insertIntoSiblings, hscan]
  | some q =>
    rw [currentList_writeBack_self, currentList_detachAll,
      filter_ne_of_not_mem _ _ h, insertIntoSiblings, hscan]

/-- C4: for every sibling list in ascending createdAt order, the insertion step
of handleUpdate places the new node immediately before the first existing entry
with strictly greater createdAt and appends after equal-timestamp entries (the
specification-worded specInsertChronological), the resulting list is again in
non-decreasing createdAt order, and so is the result of any sequence of such
insertions; moreover the placement step of insertPost performs exactly this
list operation on the target sibling list. -/
theorem c4_insertion_chronological (dates : Nat → Nat) :
    (∀ (l : List Nat) (e : Nat), ChronologicalBy dates l →
      insertIntoSiblings dates e l = specInsertChronological dates e l ∧
      ChronologicalBy dates (insertIntoSiblings dates e l)) ∧
    (∀ (seq start : List Nat), ChronologicalBy dates start →
      ChronologicalBy dates
        (seq.foldl (fun acc x => insertIntoSiblings dates x acc) start)) ∧
    (∀ (st : VState) (e : Nat) (parent : Option Nat),
      dates = dateOfEid st → e ∉ currentList st parent →
      currentList (placeElem st e parent) parent =
        insertIntoSiblings dates e (currentList st parent)) := by
  have hone : ∀ (l : List Nat) (e : Nat), ChronologicalBy dates l →
      insertIntoSiblings dates e l = specInsertChronological dates e l ∧
      ChronologicalBy dates (insertIntoSiblings dates e l) := by
    intro l e hs
    have heq := insertIntoSiblings_eq_spec dates e l hs
    exact ⟨heq, heq ▸ specInsertChronological_sorted dates e l hs⟩
  refine ⟨hone, ?_, ?_⟩
  · intro seq
    induction seq with
    | nil => intro start hs; exact hs
    | cons x rest ih =>
      intro start hs
      rw [List.foldl_cons]
      exact ih _ ((hone start x hs).2)
  · intro st e parent hd h
    subst hd
    exact currentList_placeElem_fresh st e parent h

/-- C4 instance: inserting timestamp 2 into the chronological list of
timestamps 1 and 3 places it in the middle, and repeated insertions keep the
order. -/
theorem c4_witness :
    insertIntoSiblings (fun n => n) 2 [1, 3] =
      specInsertChronological (fun n => n) 2 [1, 3] ∧
    ChronologicalBy (fun n => n) (insertIntoSiblings (fun n => n) 2 [1, 3]) := by
  have h := (c4_insertion_chronological (fun n => n)).1 [1, 3] 2 (by decide)
  exact h

theorem map_snd_mapSet {α β γ : Type} [DecidableEq α] (m : List (α × β)) (k : α)
    (v : β) (f : β → γ) :
    (mapSet m k v).map (fun kv => (kv.1, f kv.2)) =
      mapSet (m.map (fun kv => (kv.1, f kv.2))) k (f v) := by
  induction m with
  | nil => simp [mapSet]
  | cons hd tl ih =>
    by_cases hk : hd.1 = k
    · simp [mapSet, hk]
    · simp [mapSet, hk, ih]

theorem mem_mapSet {α β : Type} [DecidableEq α] (m : List (α × β)) (k : α)
    (v : β) : ∀ q ∈ mapSet m k v, q = (k, v) ∨ q ∈ m := by
  induction m with
  | nil => simp [mapSet]
  | cons hd tl ih =>
    intro q hq
    by_cases hk : hd.1 = k
    · rw [mapSet, if_pos hk] at hq
      rcases List.mem_cons.mp hq with rfl | hq2
      · exact Or.inl rfl
      · exact Or.inr (List.mem_cons_of_mem hd hq2)
    · rw [mapSet, if_neg hk] at hq
      rcases List.mem_cons.mp hq with rfl | hq2
      · exact Or.inr (List.mem_cons_self _ _)
      · rcases ih q hq2 with h | h
        · exact Or.inl h
        · exact Or.inr (List.mem_cons_of_mem hd h)

theorem createNested_unfold (path : String) (pd : Option String)
    (r : Option RxSets) (d : Nat) (b m : String) (children : List SPost)
    (st : VState) :
    createNested (SPost.mk path pd r d b m children) st =
      children.attach.foldl (cnStep st.nextEid children)
        { st with nextEid := st.nextEid + 1,
                  elems := (st.nextEid, { path := path, createdAt := d }) :: st.elems,
                  childrenMap := (st.nextEid, ([] : List Nat)) :: st.childrenMap,
                  activePosts := mapSet st.activePosts path st.nextEid } := by
  rw [createNested]
  rfl

theorem activeObsStep_unfold (path : String) (pd : Option String)
    (r : Option RxSets) (d : Nat) (b m : String) (children : List SPost)
    (acc : List (String × Option NodeData)) :
    activeObsStep (SPost.mk path pd r d b m children) acc =
      children.attach.foldl (fun a c => activeObsStep c.1 a)
        (mapSet acc path (some { path := path, createdAt := d })) := by
  rw [activeObsStep]

theorem createNested_main :
    ∀ (n : Nat) (sp : SPost) (st : VState), sizeOf sp ≤ n →
    (∀ p ∈ st.elems, p.1 < st.nextEid) →
    (∀ q ∈ st.activePosts, q.2 < st.nextEid) →
    (createNested sp st).replyBuffer = st.replyBuffer ∧
    (createNested sp st).activeReply = st.activeReply ∧
    st.nextEid ≤ (createNested sp st).nextEid ∧
    (∀ k, k < st.nextEid → mapGet (createNested sp st).elems k = mapGet st.elems k) ∧
    (∀ p ∈ (createNested sp st).elems, p.1 < (createNested sp st).nextEid) ∧
    (∀ q ∈ (createNested sp st).activePosts, q.2 < (createNested sp st).nextEid) ∧
    activeObsOf (createNested sp st) = activeObsStep sp (activeObsOf st) := by
  intro n
  induction n with
  | zero =>
    intro sp st hsz
    exfalso
    cases sp with
    | mk path pd r d b m children =>
      simp [SPost.mk.sizeOf_spec] at hsz
  | succ n ih =>
    intro sp st hsz hwfE hwfA
    cases sp with
    | mk path pd r d b m children =>
    have hszc : ∀ c ∈ children, sizeOf c ≤ n := by
      intro c hc
      have h1 := List.sizeOf_lt_of_mem hc
      simp only [SPost.mk.sizeOf_spec] at hsz
      omega
    have haux : ∀ (l : List {x // x ∈ children}) (s : VState),
        (∀ p ∈ s.elems, p.1 < s.nextEid) →
        (∀ q ∈ s.activePosts, q.2 < s.nextEid) →
        (l.foldl (cnStep st.nextEid children) s).replyBuffer = s.replyBuffer ∧
        (l.foldl (cnStep st.nextEid children) s).activeReply = s.activeReply ∧
        s.nextEid ≤ (l.foldl (cnStep st.nextEid children) s).nextEid ∧
        (∀ k, k < s.nextEid →
          mapGet (l.foldl (cnStep st.nextEid children) s).elems k =
            mapGet s.elems k) ∧
        (∀ p ∈ (l.foldl (cnStep st.nextEid children) s).elems,
          p.1 < (l.foldl (cnStep st.nextEid children) s).nextEid) ∧
        (∀ q ∈ (l.foldl (cnStep st.nextEid children) s).activePosts,
          q.2 < (l.foldl (cnStep st.nextEid children) s).nextEid) ∧
        activeObsOf (l.foldl (cnStep st.nextEid children) s) =
          l.foldl (fun a c => activeObsStep c.1 a) (activeObsOf s) := by
      intro l
      induction l with
      | nil =>
        intro s hwe hwa
        exact ⟨rfl, rfl, le_refl _, fun k hk => rfl, hwe, hwa, rfl⟩
      | cons c rest ihl =>
        intro s hwe hwa
        have hcn := ih c.1 s (hszc c.1 c.2) hwe hwa
        simp only [List.foldl_cons]
        have hs3E : ∀ p ∈ (cnStep st.nextEid children s c).elems,
            p.1 < (cnStep st.nextEid children s c).nextEid := hcn.2.2.2.2.1
        have hs3A : ∀ q ∈ (cnStep st.nextEid children s c).activePosts,
            q.2 < (cnStep st.nextEid children s c).nextEid := hcn.2.2.2.2.2.1
        have hrest := ihl (cnStep st.nextEid children s c) hs3E hs3A
        have hbuf2 : (cnStep st.nextEid children s c).replyBuffer =
            s.replyBuffer := hcn.1
        have hrep2 : (cnStep st.nextEid children s c).activeReply =
            s.activeReply := hcn.2.1
        have hnext2 : s.nextEid ≤ (cnStep st.nextEid children s c).nextEid :=
          hcn.2.2.1
        have hstab2 : ∀ k, k < s.nextEid →
            mapGet (cnStep st.nextEid children s c).elems k = mapGet s.elems k :=
          hcn.2.2.2.1
        have hobs2 : activeObsOf (cnStep st.nextEid children s c) =
            activeObsStep c.1 (activeObsOf s) := hcn.2.2.2.2.2.2
        refine ⟨hrest.1.trans hbuf2, hrest.2.1.trans hrep2,
          le_trans hnext2 hrest.2.2.1, ?_, hrest.2.2.2.2.1,
          hrest.2.2.2.2.2.1, ?_⟩
        · intro k hk
          exact (hrest.2.2.2.1 k (lt_of_lt_of_le hk hnext2)).trans (hstab2 k hk)
        · rw [hrest.2.2.2.2.2.2, hobs2]
    rw [createNested_unfold, activeObsStep_unfold]
    set st1 : VState :=
      { st with nextEid := st.nextEid + 1,
                elems := (st.nextEid, { path := path, createdAt := d }) :: st.elems,
                childrenMap := (st.nextEid, ([] : List Nat)) :: st.childrenMap,
                activePosts := mapSet st.activePosts path st.nextEid } with hst1
    have hwfE1 : ∀ p ∈ st1.elems, p.1 < st1.nextEid := by
      intro p hp
      rcases List.mem_cons.mp hp with rfl | hp2
      · simp [hst1]
      · have := hwfE p hp2
        simp only [hst1]
        omega
    have hwfA1 : ∀ q ∈ st1.activePosts, q.2 < st1.nextEid := by
      intro q hq
      rcases mem_mapSet st.activePosts path st.nextEid q hq with rfl | hq2
      · simp [hst1]
      · have := hwfA q hq2
        simp only [hst1]
        omega
    have hobs1 : activeObsOf st1 =
        mapSet (activeObsOf st) path (some { path := path, createdAt := d }) := by
      show (mapSet st.activePosts path st.nextEid).map
          (fun pe => (pe.1, mapGet st1.elems pe.2)) = _
      rw [map_snd_mapSet]
      have hhead : mapGet st1.elems st.nextEid =
          some { path := path, createdAt := d } := by
        simp [hst1, mapGet]
      rw [hhead]
      congr 1
      apply List.map_congr_left
      intro pe hpe
      have hlt := hwfA pe hpe
      have : mapGet st1.elems pe.2 = mapGet st.elems pe.2 := by
        simp only [hst1]
        rw [mapGet, if_neg (by omega)]
      rw [this]
    have hmain := haux children.attach st1 hwfE1 hwfA1
    have hnext1 : st.nextEid ≤ st1.nextEid := by simp [hst1]
    refine ⟨hmain.1.trans rfl, hmain.2.1.trans rfl,
      le_trans (by simp [hst1]) hmain.2.2.1, ?_, hmain.2.2.2.2.1,
      hmain.2.2.2.2.2.1, ?_⟩
    · intro k hk
      have h1 := hmain.2.2.2.1 k (lt_of_lt_of_le hk hnext1)
      have h2 : mapGet st1.elems k = mapGet st.elems k := by
        simp only [hst1]
        rw [mapGet, if_neg (by omega)]
      exact h1.trans h2
    · rw [hmain.2.2.2.2.2.2, hobs1]

theorem displayChannelContent_spec (posts : List PostIn) (st : VState)
    (hwfE : ∀ p ∈ st.elems, p.1 < st.nextEid) :
    (displayChannelContent posts st).replyBuffer = st.replyBuffer ∧
    (displayChannelContent posts st).activeReply = st.activeReply ∧
    st.nextEid ≤ (displayChannelContent posts st).nextEid ∧
    (∀ k, k < st.nextEid →
      mapGet (displayChannelContent posts st).elems k = mapGet st.elems k) ∧
    (∀ p ∈ (displayChannelContent posts st).elems,
      p.1 < (displayChannelContent posts st).nextEid) ∧
    activeObsOf (displayChannelContent posts st) = loadActiveObs posts := by
  have haux : ∀ (l : List SPost) (s : VState),
      (∀ p ∈ s.elems, p.1 < s.nextEid) →
      (∀ q ∈ s.activePosts, q.2 < s.nextEid) →
      (l.foldl loadStep s).replyBuffer = s.replyBuffer ∧
      (l.foldl loadStep s).activeReply = s.activeReply ∧
      s.nextEid ≤ (l.foldl loadStep s).nextEid ∧
      (∀ k, k < s.nextEid →
        mapGet (l.foldl loadStep s).elems k = mapGet s.elems k) ∧
      (∀ p ∈ (l.foldl loadStep s).elems, p.1 < (l.foldl loadStep s).nextEid) ∧
      (∀ q ∈ (l.foldl loadStep s).activePosts,
        q.2 < (l.foldl loadStep s).nextEid) ∧
      activeObsOf (l.foldl loadStep s) = l.foldl loadObsStep (activeObsOf s) := by
    intro l
    induction l with
    | nil =>
      intro s hwe hwa
      exact ⟨rfl, rfl, le_refl _, fun k hk => rfl, hwe, hwa, rfl⟩
    | cons sp rest ihl =>
      intro s hwe hwa
      simp only [List.foldl_cons]
      by_cases hcase : spParentFalsy sp = true
      · have hcn := createNested_main (sizeOf sp) sp s (le_refl _) hwe hwa
        have hstep : loadStep s sp =
            { createNested sp s with
                topLevel := (createNested sp s).topLevel ++ [s.nextEid] } := by
          rw [loadStep, if_pos hcase]
        have hs3E : ∀ p ∈ (loadStep s sp).elems, p.1 < (loadStep s sp).nextEid := by
          rw [hstep]; exact hcn.2.2.2.2.1
        have hs3A : ∀ q ∈ (loadStep s sp).activePosts,
            q.2 < (loadStep s sp).nextEid := by
          rw [hstep]; exact hcn.2.2.2.2.2.1
        have hrest := ihl (loadStep s sp) hs3E hs3A
        have hbuf2 : (loadStep s sp).replyBuffer = s.replyBuffer := by
          rw [hstep]; exact hcn.1
        have hrep2 : (loadStep s sp).activeReply = s.activeReply := by
          rw [hstep]; exact hcn.2.1
        have hnext2 : s.nextEid ≤ (loadStep s sp).nextEid := by
          rw [hstep]; exact hcn.2.2.1
        have hstab2 : ∀ k, k < s.nextEid →
            mapGet (loadStep s sp).elems k = mapGet s.elems k := by
          rw [hstep]; exact hcn.2.2.2.1
        have hobs2 : activeObsOf (loadStep s sp) =
            loadObsStep (activeObsOf s) sp := by
          rw [hstep, loadObsStep, if_pos hcase]
          exact hcn.2.2.2.2.2.2
        refine ⟨hrest.1.trans hbuf2, hrest.2.1.trans hrep2,
          le_trans hnext2 hrest.2.2.1, ?_, hrest.2.2.2.2.1,
          hrest.2.2.2.2.2.1, ?_⟩
        · intro k hk
          exact (hrest.2.2.2.1 k (lt_of_lt_of_le hk hnext2)).trans (hstab2 k hk)
        · rw [hrest.2.2.2.2.2.2, hobs2]
      · have hstep : loadStep s sp = s := by
          rw [loadStep, if_neg hcase]
        have hobs2 : loadObsStep (activeObsOf s) sp = activeObsOf s := by
          rw [loadObsStep, if_neg hcase]
        rw [hstep, hobs2]
        exact ihl s hwe hwa
  have h0E : ∀ p ∈ ({ st with activePosts := [], topLevel := [] } : VState).elems,
      p.1 < ({ st with activePosts := [], topLevel := [] } : VState).nextEid := hwfE
  have h0A : ∀ q ∈ ({ st with activePosts := [], topLevel := [] } : VState).activePosts,
      q.2 < ({ st with activePosts := [], topLevel := [] } : VState).nextEid := by
    intro q hq
    simp at hq
  have hm := haux (buildStructured posts)
    ({ st with activePosts := [], topLevel := [] }) h0E h0A
  exact ⟨hm.1, hm.2.1, hm.2.2.1, hm.2.2.2.1, hm.2.2.2.2.1, hm.2.2.2.2.2.2⟩

/-- C7 amended: calling displayChannelContent twice in succession leaves the
observable reconciliation state (active index with rendered data, orphan
buffer, reply cursor) identical to calling it once with the second posts;
the orphan buffer and the reply cursor are not discarded by a switch, they
persist through every call. -/
theorem c7_amended_double_load (posts1 posts2 : List PostIn) (st : VState)
    (h : EidsBelow st) :
    recObs (displayChannelContent posts2 (displayChannelContent posts1 st)) =
      recObs (displayChannelContent posts2 st) := by
  obtain ⟨hE, hB, hA⟩ := h
  have s1 := displayChannelContent_spec posts1 st hE
  have s2 := displayChannelContent_spec posts2 (displayChannelContent posts1 st)
    s1.2.2.2.2.1
  have s3 := displayChannelContent_spec posts2 st hE
  show RecObs.mk _ _ _ = RecObs.mk _ _ _
  rw [RecObs.mk.injEq]
  refine ⟨?_, ?_, ?_⟩
  · show activeObsOf _ = activeObsOf _
    rw [s2.2.2.2.2.2, s3.2.2.2.2.2]
  · show (displayChannelContent posts2 (displayChannelContent posts1 st)).replyBuffer.map _ =
      (displayChannelContent posts2 st).replyBuffer.map _
    rw [s2.1.trans s1.1, s3.1]
    apply List.map_congr_left
    intro kv hkv
    have hlt := hB kv hkv
    have hL : mapGet (displayChannelContent posts2
        (displayChannelContent posts1 st)).elems kv.2 = mapGet st.elems kv.2 := by
      have h1 := s2.2.2.2.1 kv.2 (lt_of_lt_of_le hlt s1.2.2.1)
      have h2 := s1.2.2.2.1 kv.2 hlt
      exact h1.trans h2
    have hR : mapGet (displayChannelContent posts2 st).elems kv.2 =
        mapGet st.elems kv.2 := s3.2.2.2.1 kv.2 hlt
    rw [hL, hR]
  · show (displayChannelContent posts2 (displayChannelContent posts1 st)).activeReply =
      (displayChannelContent posts2 st).activeReply
    rw [s2.2.1, s1.2.1, s3.2.1]

/-- C7 amended instance: a double load over a state carrying an orphan-buffer
entry and an open reply cursor. -/
theorem c7_amended_witness :
    recObs (displayChannelContent [samplePost "q" none 3]
      (displayChannelContent [samplePost "w" none 4] stWithOrphanAndCursor)) =
      recObs (displayChannelContent [samplePost "q" none 3]
        stWithOrphanAndCursor) :=
  c7_amended_double_load [samplePost "w" none 4] [samplePost "q" none 3]
    stWithOrphanAndCursor (by decide)

theorem getD_append_lt (l1 l2 : List PostIn) (i : Nat) (h : i < l1.length) :
    (l1 ++ l2).getD i default = l1.getD i default := by
  rw [List.getD_eq_getElem?_getD, List.getD_eq_getElem?_getD,
    List.getElem?_append_left h]

theorem getD_append_self (l1 : List PostIn) (u : PostIn) (l2 : List PostIn) :
    (l1 ++ u :: l2).getD l1.length default = u := by
  rw [List.getD_eq_getElem?_getD,
    List.getElem?_append_right (le_refl _)]
  simp

theorem pathAt_extend (done l2 : List PostIn) (i : Nat) (h : i < done.length) :
    pathAt (done ++ l2) i = pathAt done i := by
  rw [pathAt, pathAt, getD_append_lt _ _ _ h]

theorem parentPathAt_extend (done l2 : List PostIn) (i : Nat)
    (h : i < done.length) :
    parentPathAt (done ++ l2) i = parentPathAt done i := by
  rw [parentPathAt, parentPathAt, getD_append_lt _ _ _ h]

theorem pathAt_last (done : List PostIn) (u : PostIn) :
    pathAt (done ++ [u]) done.length = u.path := by
  rw [pathAt, getD_append_self]

theorem parentPathAt_last (done : List PostIn) (u : PostIn) :
    parentPathAt (done ++ [u]) done.length = optNonEmpty u.parentD := by
  rw [parentPathAt, getD_append_self]

theorem getD_eq_get (l : List PostIn) (i : Nat) (h : i < l.length) :
    l.getD i default = l.get ⟨i, h⟩ := by
  rw [List.getD_eq_getElem?_getD, List.getElem?_eq_getElem h]
  rfl

theorem getD_mem_of_lt (l : List PostIn) (i : Nat) (h : i < l.length) :
    l.getD i default ∈ l := by
  rw [getD_eq_get l i h]
  exact l.get_mem i h


theorem pathAt_exists_of_mem (done : List PostIn) (k : String)
    (h : k ∈ done.map (fun u => u.path)) :
    ∃ j, j < done.length ∧ pathAt done j = k := by
  rcases List.mem_map.mp h with ⟨u, hu, hk⟩
  rcases List.get_of_mem hu with ⟨⟨j, hj⟩, hget⟩
  refine ⟨j, hj, ?_⟩
  rw [pathAt, getD_eq_get done j hj, hget, hk]

theorem pathAt_mem (done : List PostIn) (j : Nat) (h : j < done.length) :
    pathAt done j ∈ done.map (fun u => u.path) :=
  List.mem_map.mpr ⟨done.getD j default, getD_mem_of_lt done j h, rfl⟩

theorem pathAt_inj (done : List PostIn)
    (hnd : (done.map (fun u => u.path)).Nodup) (j1 j2 : Nat)
    (h1 : j1 < done.length) (h2 : j2 < done.length)
    (heq : pathAt done j1 = pathAt done j2) : j1 = j2 := by
  have hlen : (done.map (fun u => u.path)).length = done.length := by simp
  have e1 : (done.map (fun u => u.path)).get ⟨j1, by omega⟩ = pathAt done j1 := by
    rw [pathAt, getD_eq_get done j1 h1, List.get_map]
  have e2 : (done.map (fun u => u.path)).get ⟨j2, by omega⟩ = pathAt done j2 := by
    rw [pathAt, getD_eq_get done j2 h2, List.get_map]
  have hg : (done.map (fun u => u.path)).get ⟨j1, by omega⟩ =
      (done.map (fun u => u.path)).get ⟨j2, by omega⟩ := by
    rw [e1, e2, heq]
  have := (List.Nodup.get_inj_iff hnd).mp hg
  exact congrArg Fin.val this

theorem mapGet_none_iff {α β : Type} [DecidableEq α] (m : List (α × β)) (k : α) :
    mapGet m k = none ↔ k ∉ m.map (fun kv => kv.1) := by
  induction m with
  | nil => simp [mapGet]
  | cons hd tl ih =>
    by_cases hk : hd.1 = k
    · simp [mapGet, hk]
    · simp [mapGet, hk, ih, Ne.symm hk]

theorem mapGet_mem {α β : Type} [DecidableEq α] (m : List (α × β)) (k : α)
    (v : β) (h : mapGet m k = some v) : (k, v) ∈ m := by
  induction m with
  | nil => simp [mapGet] at h
  | cons hd tl ih =>
    by_cases hk : hd.1 = k
    · rw [mapGet, if_pos hk] at h
      rw [Option.some.injEq] at h
      have hhd : hd = (k, v) := by
        rcases hd with ⟨a, b⟩
        simp only at hk h
        rw [hk, h]
      rw [hhd]
      exact List.mem_cons_self _ _
    · rw [mapGet, if_neg hk] at h
      exact List.mem_cons_of_mem hd (ih h)

theorem mapGet_eq_of_mem_nodup {α β : Type} [DecidableEq α]
    (m : List (α × β)) (hnd : (m.map (fun kv => kv.1)).Nodup) (kv : α × β)
    (h : kv ∈ m) : mapGet m kv.1 = some kv.2 := by
  induction m with
  | nil => simp at h
  | cons hd tl ih =>
    simp only [List.map_cons, List.nodup_cons] at hnd
    rcases List.mem_cons.mp h with rfl | h2
    · rw [mapGet, if_pos rfl]
    · have hne : hd.1 ≠ kv.1 := by
        intro heq
        exact hnd.1 (heq ▸ List.mem_map.mpr ⟨kv, h2, rfl⟩)
      rw [mapGet, if_neg hne]
      exact ih hnd.2 h2

theorem mapSet_fresh {α β : Type} [DecidableEq α] (m : List (α × β)) (k : α)
    (v : β) (h : k ∉ m.map (fun kv => kv.1)) : mapSet m k v = m ++ [(k, v)] := by
  induction m with
  | nil => simp [mapSet]
  | cons hd tl ih =>
    simp only [List.map_cons, List.mem_cons, not_or] at h
    rw [mapSet, if_neg (fun hx => h.1 hx.symm), ih h.2, List.cons_append]

theorem mapSet_keys_of_mem {α β : Type} [DecidableEq α] (m : List (α × β))
    (k : α) (v : β) (h : k ∈ m.map (fun kv => kv.1)) :
    (mapSet m k v).map (fun kv => kv.1) = m.map (fun kv => kv.1) := by
  induction m with
  | nil => simp at h
  | cons hd tl ih =>
    by_cases hk : hd.1 = k
    · simp [mapSet, hk]
    · simp only [List.map_cons, List.mem_cons, Ne.symm hk, false_or] at h
      simp [mapSet, hk, ih h]

theorem mapSet_keys_nodup {α β : Type} [DecidableEq α] (m : List (α × β))
    (k : α) (v : β) (hnd : (m.map (fun kv => kv.1)).Nodup) :
    ((mapSet m k v).map (fun kv => kv.1)).Nodup := by
  by_cases h : k ∈ m.map (fun kv => kv.1)
  · rw [mapSet_keys_of_mem m k v h]
    exact hnd
  · rw [mapSet_fresh m k v h, List.map_append]
    simp only [List.map_cons, List.map_nil]
    rw [List.nodup_append]
    refine ⟨hnd, List.nodup_singleton k, ?_⟩
    intro a ha hb
    rw [List.mem_singleton] at hb
    subst hb
    exact h ha

theorem extractKey_none_iff (l : List (String × Nat)) (k : String) :
    extractKey l k = none ↔ mapGet l k = none := by
  induction l with
  | nil => simp [extractKey, mapGet]
  | cons hd tl ih =>
    by_cases hk : hd.1 = k
    · simp [extractKey, mapGet, hk]
    · rw [extractKey, mapGet, if_neg hk, if_neg hk, ← ih]
      cases extractKey tl k <;> simp

theorem extractKey_some_mapGet (l : List (String × Nat)) (k : String)
    (vr : Nat × List (String × Nat)) (h : extractKey l k = some vr) :
    mapGet l k = some vr.1 := by
  induction l generalizing vr with
  | nil => simp [extractKey] at h
  | cons hd tl ih =>
    by_cases hk : hd.1 = k
    · rw [extractKey, if_pos hk] at h
      rw [mapGet, if_pos hk]
      rw [Option.some.injEq] at h
      rw [← h]
    · rw [extractKey, if_neg hk] at h
      rw [mapGet, if_neg hk]
      cases hex : extractKey tl k with
      | none => rw [hex] at h; cases h
      | some vr2 =>
        rw [hex] at h
        rw [Option.some.injEq] at h
        have := ih vr2 hex
        rw [this, ← h]

theorem extractKey_sublist (l : List (String × Nat)) (k : String)
    (vr : Nat × List (String × Nat)) (h : extractKey l k = some vr) :
    vr.2.Sublist l := by
  induction l generalizing vr with
  | nil => simp [extractKey] at h
  | cons hd tl ih =>
    by_cases hk : hd.1 = k
    · rw [extractKey, if_pos hk, Option.some.injEq] at h
      rw [← h]
      exact (List.sublist_cons_self hd tl)
    · rw [extractKey, if_neg hk] at h
      cases hex : extractKey tl k with
      | none => rw [hex] at h; cases h
      | some vr2 =>
        rw [hex, Option.some.injEq] at h
        rw [← h]
        exact (ih vr2 hex).cons₂ (hd.1, hd.2)

theorem extractKey_length_succ (l : List (String × Nat)) (k : String)
    (vr : Nat × List (String × Nat)) (h : extractKey l k = some vr) :
    vr.2.length + 1 = l.length := by
  induction l generalizing vr with
  | nil => simp [extractKey] at h
  | cons hd tl ih =>
    by_cases hk : hd.1 = k
    · rw [extractKey, if_pos hk, Option.some.injEq] at h
      rw [← h, List.length_cons]
    · rw [extractKey, if_neg hk] at h
      cases hex : extractKey tl k with
      | none => rw [hex] at h; cases h
      | some vr2 =>
        rw [hex, Option.some.injEq] at h
        rw [← h, List.length_cons, List.length_cons, ih vr2 hex]

theorem extractKey_mapGet_ne (l : List (String × Nat)) (k k2 : String)
    (vr : Nat × List (String × Nat)) (h : extractKey l k = some vr)
    (hne : k2 ≠ k) : mapGet vr.2 k2 = mapGet l k2 := by
  induction l generalizing vr with
  | nil => simp [extractKey] at h
  | cons hd tl ih =>
    by_cases hk : hd.1 = k
    · rw [extractKey, if_pos hk, Option.some.injEq] at h
      rw [← h]
      rw [mapGet, if_neg (by rw [hk]; exact fun hx => hne hx.symm)]
    · rw [extractKey, if_neg hk] at h
      cases hex : extractKey tl k with
      | none => rw [hex] at h; cases h
      | some vr2 =>
        rw [hex, Option.some.injEq] at h
        rw [← h]
        by_cases hk2 : hd.1 = k2
        · rw [mapGet, mapGet, if_pos hk2, if_pos hk2]
        · rw [mapGet, mapGet, if_neg hk2, if_neg hk2]
          exact ih vr2 hex

theorem extractKey_key_not_mem (l : List (String × Nat)) (k : String)
    (vr : Nat × List (String × Nat))
    (hnd : (l.map (fun kv => kv.1)).Nodup) (h : extractKey l k = some vr) :
    k ∉ vr.2.map (fun kv => kv.1) := by
  induction l generalizing vr with
  | nil => simp [extractKey] at h
  | cons hd tl ih =>
    simp only [List.map_cons, List.nodup_cons] at hnd
    by_cases hk : hd.1 = k
    · rw [extractKey, if_pos hk, Option.some.injEq] at h
      rw [← h]
      exact fun hm => hnd.1 (hk ▸ hm)
    · rw [extractKey, if_neg hk] at h
      cases hex : extractKey tl k with
      | none => rw [hex] at h; cases h
      | some vr2 =>
        rw [hex, Option.some.injEq] at h
        rw [← h, List.map_cons, List.mem_cons]
        rintro (heq | hm)
        · exact hk heq.symm
        · exact ih vr2 hnd.2 hex hm

theorem withEids_append (s : Nat) (l : List PostIn) (u : PostIn) :
    withEids s (l ++ [u]) = withEids s l ++ [(u.path, s + l.length)] := by
  induction l generalizing s with
  | nil => simp [withEids]
  | cons hd tl ih =>
    rw [List.cons_append, withEids, withEids, ih (s + 1), List.cons_append,
      List.length_cons]
    have : s + 1 + tl.length = s + (tl.length + 1) := by omega
    rw [this]

theorem withEids_map_fst (s : Nat) (l : List PostIn) :
    (withEids s l).map (fun kv => kv.1) = l.map (fun u => u.path) := by
  induction l generalizing s with
  | nil => rfl
  | cons hd tl ih => simp [withEids, ih]

theorem withEids_map_snd (s : Nat) (l : List PostIn) :
    (withEids s l).map (fun kv => kv.2) = List.range' s l.length := by
  induction l generalizing s with
  | nil => rfl
  | cons hd tl ih => simp [withEids, ih, List.range']

theorem mapGet_withEids_none_iff (s : Nat) (l : List PostIn) (k : String) :
    mapGet (withEids s l) k = none ↔ k ∉ l.map (fun u => u.path) := by
  rw [mapGet_none_iff, withEids_map_fst]

theorem mapGet_withEids_some (s : Nat) (l : List PostIn) (k : String) (v : Nat)
    (h : mapGet (withEids s l) k = some v) :
    ∃ j, j < l.length ∧ v = s + j ∧ pathAt l j = k := by
  induction l generalizing s with
  | nil => simp [withEids, mapGet] at h
  | cons hd tl ih =>
    by_cases hk : hd.path = k
    · rw [withEids, mapGet, if_pos hk, Option.some.injEq] at h
      exact ⟨0, by simp, by omega, by simpa [pathAt] using hk⟩
    · rw [withEids, mapGet, if_neg hk] at h
      rcases ih (s + 1) h with ⟨j, hj, hv, hp⟩
      refine ⟨j + 1, by simpa using hj, by omega, ?_⟩
      simpa [pathAt] using hp

theorem cons_filter_perm (l : List Nat) (p q : Nat → Bool) (e : Nat)
    (he : e ∈ l) (hnd : l.Nodup) (hp : p e = true) (hq : q e = false)
    (hagree : ∀ x ∈ l, x ≠ e → p x = q x) :
    (e :: l.filter q).Perm (l.filter p) := by
  have hperm := List.perm_cons_erase he
  have hpfil : (l.filter p).Perm (e :: (l.erase e).filter p) := by
    have := hperm.filter p
    rwa [List.filter_cons, hp] at this
  have hqfil : (l.filter q).Perm ((l.erase e).filter q) := by
    have := hperm.filter q
    rwa [List.filter_cons, hq] at this
  have hcongr : (l.erase e).filter p = (l.erase e).filter q := by
    apply List.filter_congr
    intro x hx
    have hxl : x ∈ l := List.mem_of_mem_erase hx
    have hxe : x ≠ e := by
      intro hxeq
      subst hxeq
      exact hnd.not_mem_erase hx
    exact hagree x hxl hxe
  refine (List.Perm.cons e hqfil).trans ?_
  rw [← hcongr]
  exact hpfil.symm

theorem flatten_map_congr_perm {α β : Type} (l : List α) (f g : α → List β)
    (h : ∀ x ∈ l, (f x).Perm (g x)) :
    ((l.map f).flatten).Perm ((l.map g).flatten) := by
  induction l with
  | nil => simp
  | cons hd tl ih =>
    simp only [List.map_cons, List.flatten_cons]
    exact (h hd (List.mem_cons_self hd tl)).append
      (ih (fun x hx => h x (List.mem_cons_of_mem hd hx)))

theorem mem_rootsIdx (D : List PostIn) (ex : List Nat) (i : Nat) :
    i ∈ rootsIdx D ex ↔
      i < D.length ∧ (parentPathAt D i).isNone = true ∧ i ∉ ex := by
  simp [rootsIdx, List.mem_filter, List.mem_range]

theorem mem_childIdx (D : List PostIn) (ex : List Nat) (j i : Nat) :
    i ∈ childIdx D ex j ↔
      i < D.length ∧ parentPathAt D i = some (pathAt D j) ∧ i ∉ ex := by
  simp [childIdx, List.mem_filter, List.mem_range]

theorem rootsIdx_nodup (D : List PostIn) (ex : List Nat) :
    (rootsIdx D ex).Nodup :=
  (List.nodup_range D.length).filter _

theorem childIdx_nodup (D : List PostIn) (ex : List Nat) (j : Nat) :
    (childIdx D ex j).Nodup :=
  (List.nodup_range D.length).filter _

theorem rootsIdx_congr (D : List PostIn) (ex1 ex2 : List Nat)
    (h : ∀ i, i < D.length → (i ∈ ex1 ↔ i ∈ ex2)) :
    rootsIdx D ex1 = rootsIdx D ex2 := by
  apply List.filter_congr
  intro i hi
  rw [List.mem_range] at hi
  have := h i hi
  by_cases h1 : i ∈ ex1
  · have h2 : i ∈ ex2 := this.mp h1
    simp [h1, h2]
  · have h2 : i ∉ ex2 := fun hx => h1 (this.mpr hx)
    simp [h1, h2]

theorem childIdx_congr (D : List PostIn) (ex1 ex2 : List Nat) (j : Nat)
    (h : ∀ i, i < D.length → (i ∈ ex1 ↔ i ∈ ex2)) :
    childIdx D ex1 j = childIdx D ex2 j := by
  apply List.filter_congr
  intro i hi
  rw [List.mem_range] at hi
  have := h i hi
  by_cases h1 : i ∈ ex1
  · have h2 : i ∈ ex2 := this.mp h1
    simp [h1, h2]
  · have h2 : i ∉ ex2 := fun hx => h1 (this.mpr hx)
    simp [h1, h2]

theorem childIdx_cons_perm (D : List PostIn) (P : List Nat) (e j : Nat)
    (he : e < D.length) (hepar : parentPathAt D e = some (pathAt D j))
    (heP : e ∉ P) :
    (e :: childIdx D (e :: P) j).Perm (childIdx D P j) := by
  apply cons_filter_perm
  · exact List.mem_range.mpr he
  · exact List.nodup_range D.length
  · simp [hepar, heP]
  · simp
  · intro x hx hxe
    simp [hxe]

theorem rootsIdx_cons_perm (D : List PostIn) (P : List Nat) (e : Nat)
    (he : e < D.length) (hepar : (parentPathAt D e).isNone = true)
    (heP : e ∉ P) :
    (e :: rootsIdx D (e :: P)).Perm (rootsIdx D P) := by
  apply cons_filter_perm
  · exact List.mem_range.mpr he
  · exact List.nodup_range D.length
  · simp [hepar, heP]
  · simp
  · intro x hx hxe
    simp [hxe]

theorem cm_entry_facts (st : VState) (n : Nat)
    (hkeys : st.childrenMap.map (fun kl => kl.1) = (List.range n).reverse) :
    ∀ kv ∈ st.childrenMap, kv.1 < n ∧
      mapGet st.childrenMap kv.1 = some kv.2 := by
  intro kv hkv
  have hnd : (st.childrenMap.map (fun kl => kl.1)).Nodup := by
    rw [hkeys]
    exact List.nodup_reverse.mpr (List.nodup_range n)
  constructor
  · have : kv.1 ∈ st.childrenMap.map (fun kl => kl.1) :=
      List.mem_map.mpr ⟨kv, hkv, rfl⟩
    rw [hkeys, List.mem_reverse, List.mem_range] at this
    exact this
  · exact mapGet_eq_of_mem_nodup st.childrenMap hnd kv hkv

theorem detachAll_eq (st : VState) (e : Nat) (htl : e ∉ st.topLevel)
    (hcm : ∀ kv ∈ st.childrenMap, e ∉ kv.2) : detachAll st e = st := by
  have h1 : st.topLevel.filter (fun y => y != e) = st.topLevel :=
    filter_ne_of_not_mem st.topLevel e htl
  have h2 : st.childrenMap.map
      (fun kl => (kl.1, kl.2.filter (fun y => y != e))) = st.childrenMap := by
    have : ∀ kl ∈ st.childrenMap,
        (kl.1, kl.2.filter (fun y => y != e)) = kl := by
      intro kl hkl
      rw [filter_ne_of_not_mem kl.2 e (hcm kl hkl)]
    calc st.childrenMap.map (fun kl => (kl.1, kl.2.filter (fun y => y != e)))
        = st.childrenMap.map id := List.map_congr_left this
      _ = st.childrenMap := List.map_id st.childrenMap
  rw [detachAll, h1, h2]

theorem placeElem_none_lists (st : VState) (e : Nat) (htl : e ∉ st.topLevel)
    (hcm : ∀ kv ∈ st.childrenMap, e ∉ kv.2) :
    (placeElem st e none).topLevel.Perm (e :: st.topLevel) ∧
    (placeElem st e none).childrenMap = st.childrenMap := by
  rw [placeElem, detachAll_eq st e htl hcm]
  cases hscan : insertScan (dateOfEid st) (dateOfEid st e) (currentList st none) with
  | none =>
    constructor
    · exact List.perm_append_singleton e st.topLevel
    · rfl
  | some q =>
    constructor
    · exact insertBeforeEid_perm st.topLevel q.1 e
    · rfl

theorem placeElem_some_lists (st : VState) (e pe : Nat) (htl : e ∉ st.topLevel)
    (hcm : ∀ kv ∈ st.childrenMap, e ∉ kv.2)
    (hkey : pe ∈ st.childrenMap.map (fun kl => kl.1)) :
    (placeElem st e (some pe)).topLevel = st.topLevel ∧
    ((mapGet (placeElem st e (some pe)).childrenMap pe).getD []).Perm
      (e :: (mapGet st.childrenMap pe).getD []) ∧
    (∀ j, j ≠ pe → mapGet (placeElem st e (some pe)).childrenMap j =
      mapGet st.childrenMap j) ∧
    (placeElem st e (some pe)).childrenMap.map (fun kl => kl.1) =
      st.childrenMap.map (fun kl => kl.1) := by
  rw [placeElem, detachAll_eq st e htl hcm]
  cases hscan : insertScan (dateOfEid st) (dateOfEid st e)
      (currentList st (some pe)) with
  | none =>
    refine ⟨rfl, ?_, ?_, ?_⟩
    · show ((mapGet (mapSet st.childrenMap pe
        ((mapGet st.childrenMap pe).getD [] ++ [e])) pe).getD []).Perm _
      rw [mapGet_mapSet_self]
      exact List.perm_append_singleton e _
    · intro j hj
      exact mapGet_mapSet_ne st.childrenMap pe j _ hj
    · exact mapSet_keys_of_mem st.childrenMap pe _ hkey
  | some q =>
    refine ⟨rfl, ?_, ?_, ?_⟩
    · show ((mapGet (mapSet st.childrenMap pe
        (insertBeforeEid ((mapGet st.childrenMap pe).getD []) q.1 e)) pe).getD
          []).Perm _
      rw [mapGet_mapSet_self]
      exact insertBeforeEid_perm _ q.1 e
    · intro j hj
      exact mapGet_mapSet_ne st.childrenMap pe j _ hj
    · exact mapSet_keys_of_mem st.childrenMap pe _ hkey

theorem rootsIdx_drop (D : List PostIn) (ex : List Nat)
    (h : ∀ i ∈ ex, (parentPathAt D i).isNone = false) :
    rootsIdx D ex = rootsIdx D [] := by
  apply List.filter_congr
  intro i hi
  by_cases hm : i ∈ ex
  · simp [h i hm]
  · simp [hm]

theorem childIdx_drop_head (D : List PostIn) (P : List Nat) (j e : Nat)
    (h : parentPathAt D e ≠ some (pathAt D j)) :
    childIdx D (e :: P) j = childIdx D P j := by
  apply List.filter_congr
  intro i hi
  by_cases hie : i = e
  · subst hie
    simp [h]
  · simp [hie]

theorem isNone_false_of_ne_none {α : Type} (o : Option α) (h : o ≠ none) :
    o.isNone = false := by
  cases o with
  | none => exact absurd rfl h
  | some v => rfl

theorem cascade_terminal (D : List PostIn) (hndD : PathsDistinct D)
    (P : List Nat) (s : VState) (e : Nat) (parent : Option Nat)
    (buf : List (String × Nat)) (hc : CascadeInv D P s e parent buf)
    (hnochild : ∀ i ∈ P, parentPathAt D i ≠ some (pathAt D e)) :
    DeliveryInv D P (placeElem s e parent) := by
  have hfields := placeElem_fields s e parent
  have htlE : e ∉ s.topLevel := by
    intro hmem
    have := (hc.hTop.mem_iff).mp hmem
    rw [mem_rootsIdx] at this
    exact this.2.2 (List.mem_cons_self e P)
  have hcmE : ∀ kv ∈ s.childrenMap, e ∉ kv.2 := by
    intro kv hkv hmem
    have hfacts := cm_entry_facts s D.length hc.hChildKeys kv hkv
    have hch := hc.hChild kv.1 hfacts.1
    rw [hfacts.2] at hch
    have := hch.mem_iff.mp hmem
    rw [mem_childIdx] at this
    exact this.2.2 (List.mem_cons_self e P)
  have hpendDrop : ∀ i ∈ (e :: P), (parentPathAt D i).isNone = false → True := by
    intro _ _ _; trivial
  have hChainFix : ∀ i ∈ P, ∀ j, j < D.length → ∀ k,
      parentPathAt D i = some k → pathAt D j = k → j ∈ P := by
    intro i hi j hj k hpar hpath
    rcases hc.hPendChain i hi j hj k hpar hpath with hjP | hje
    · exact hjP
    · subst hje
      exact absurd (hpath ▸ hpar) (hnochild i hi)
  cases parent with
  | none =>
    have hlists := placeElem_none_lists s e htlE hcmE
    have hroot : (parentPathAt D e).isNone = true := by
      have := hc.hEparent
      simp only at this
      rw [this]
      rfl
    refine ⟨?_, ?_, ?_, ?_, ?_, ?_, ?_, hc.hPendSub, hc.hPendNodup,
      hc.hPendParent, ?_, ?_, hChainFix, ?_, ?_, ?_⟩
    · rw [hfields.1]; exact hc.hNext
    · rw [hfields.2.2.1]; exact hc.hActive
    · intro i hi
      rw [hfields.2.1]
      exact hc.hElem i hi
    · intro p hp
      rw [hfields.2.1] at hp
      exact hc.hElemKeys p hp
    · rw [hlists.2]; exact hc.hChildKeys
    · refine hlists.1.trans ?_
      refine ((hc.hTop.cons e).trans ?_)
      refine (rootsIdx_cons_perm D P e hc.hE hroot hc.hENotPend).trans ?_
      rw [rootsIdx_drop D P (fun i hi =>
        isNone_false_of_ne_none _ (hc.hPendParent i hi))]
    · intro j hj
      rw [hlists.2]
      refine (hc.hChild j hj).trans ?_
      rw [childIdx_drop_head D P j e ?_]
      intro heq
      rw [heq] at hroot
      simp at hroot
    · intro i hi hiP i2 hpar
      by_cases hie : i = e
      · subst hie
        have := hc.hEparent
        simp only at this
        rw [this] at hpar
        cases hpar
      · exact hc.hAttachedPar i hi hiP hie i2 hpar
    · intro i hi k hpar
      rw [hfields.2.2.2.1]
      exact hc.hPendBuffer i hi k hpar
    · intro kv hkv
      rw [hfields.2.2.2.1] at hkv
      exact hc.hBufValid kv hkv
    · rw [hfields.2.2.2.1]
      exact hc.hBufKeys
    · intro kv hkv hkvP
      rw [hfields.2.2.2.1] at hkv
      rcases hc.hBufPend kv hkv hkvP with ⟨j, hj, hp1, hp2, _⟩
      exact ⟨j, hj, hp1, hp2⟩
  | some pe =>
    have hpe := hc.hEparent
    simp only at hpe
    have hpekey : pe ∈ s.childrenMap.map (fun kl => kl.1) := by
      rw [hc.hChildKeys, List.mem_reverse, List.mem_range]
      exact hpe.1
    have hlists := placeElem_some_lists s e pe htlE hcmE hpekey
    refine ⟨?_, ?_, ?_, ?_, ?_, ?_, ?_, hc.hPendSub, hc.hPendNodup,
      hc.hPendParent, ?_, ?_, hChainFix, ?_, ?_, ?_⟩
    · rw [hfields.1]; exact hc.hNext
    · rw [hfields.2.2.1]; exact hc.hActive
    · intro i hi
      rw [hfields.2.1]
      exact hc.hElem i hi
    · intro p hp
      rw [hfields.2.1] at hp
      exact hc.hElemKeys p hp
    · rw [hlists.2.2.2]; exact hc.hChildKeys
    · rw [hlists.1]
      refine hc.hTop.trans ?_
      rw [rootsIdx_drop D (e :: P) ?_]
      intro i hi
      rcases List.mem_cons.mp hi with rfl | hiP
      · rw [hpe.2]; rfl
      · exact isNone_false_of_ne_none _ (hc.hPendParent i hiP)
    · intro j hj
      by_cases hje : j = pe
      · subst hje
        refine (hlists.2.1.trans ?_)
        refine ((hc.hChild j hj).cons e).trans ?_
        exact childIdx_cons_perm D P e j hc.hE hpe.2 hc.hENotPend
      · rw [hlists.2.2.1 j hje]
        refine (hc.hChild j hj).trans ?_
        rw [childIdx_drop_head D P j e ?_]
        rw [hpe.2]
        intro heq
        rw [Option.some.injEq] at heq
        exact hje (pathAt_inj D hndD j pe hj hpe.1 heq.symm)
    · intro i hi hiP i2 hpar
      by_cases hie : i = e
      · subst hie
        rw [hpe.2, Option.some.injEq] at hpar
        rw [← hpar]
        exact pathAt_mem D pe hpe.1
      · exact hc.hAttachedPar i hi hiP hie i2 hpar
    · intro i hi k hpar
      rw [hfields.2.2.2.1]
      exact hc.hPendBuffer i hi k hpar
    · intro kv hkv
      rw [hfields.2.2.2.1] at hkv
      exact hc.hBufValid kv hkv
    · rw [hfields.2.2.2.1]
      exact hc.hBufKeys
    · intro kv hkv hkvP
      rw [hfields.2.2.2.1] at hkv
      rcases hc.hBufPend kv hkv hkvP with ⟨j, hj, hp1, hp2, _⟩
      exact ⟨j, hj, hp1, hp2⟩

theorem cascadeInv_detached (D : List PostIn) (P : List Nat) (s : VState)
    (e : Nat) (parent : Option Nat) (buf : List (String × Nat))
    (hc : CascadeInv D P s e parent buf) :
    e ∉ s.topLevel ∧ ∀ kv ∈ s.childrenMap, e ∉ kv.2 := by
  constructor
  · intro hmem
    have := (hc.hTop.mem_iff).mp hmem
    rw [mem_rootsIdx] at this
    exact this.2.2 (List.mem_cons_self e P)
  · intro kv hkv hmem
    have hfacts := cm_entry_facts s D.length hc.hChildKeys kv hkv
    have hch := hc.hChild kv.1 hfacts.1
    rw [hfacts.2] at hch
    have := hch.mem_iff.mp hmem
    rw [mem_childIdx] at this
    exact this.2.2 (List.mem_cons_self e P)

theorem cascade_step (D : List PostIn) (hndD : PathsDistinct D)
    (P : List Nat) (s : VState) (e : Nat) (parent : Option Nat)
    (buf : List (String × Nat)) (hc : CascadeInv D P s e parent buf)
    (v : Nat) (rest : List (String × Nat))
    (hex : extractKey buf (pathAt D e) = some (v, rest)) :
    v ∈ P ∧ CascadeInv D (P.erase v) (placeElem s e parent) v (some e) rest := by
  have hfields := placeElem_fields s e parent
  have hdet := cascadeInv_detached D P s e parent buf hc
  have hmg : mapGet buf (pathAt D e) = some v :=
    extractKey_some_mapGet buf (pathAt D e) (v, rest) hex
  have hkvlive : (pathAt D e, v) ∈ s.replyBuffer :=
    hc.hBufSub.subset (mapGet_mem buf (pathAt D e) v hmg)
  have hvalid := hc.hBufValid (pathAt D e, v) hkvlive
  have hvP : v ∈ P := by
    by_contra hnot
    rcases hc.hBufPend (pathAt D e, v) hkvlive hnot with ⟨j, hj, hpathj, _, hje⟩
    exact hje (pathAt_inj D hndD j e hj hc.hE hpathj)
  have hvne : v ≠ e := fun heq => hc.hENotPend (heq ▸ hvP)
  have huniq : ∀ i ∈ P, parentPathAt D i = some (pathAt D e) → i = v := by
    intro i hi hpar
    have := hc.hBufExtract i hi (pathAt D e) hpar
    rw [hmg, Option.some.injEq] at this
    exact this.symm
  have hmemP : ∀ i, i ∈ P ↔ i = v ∨ i ∈ P.erase v := by
    intro i
    have h2 : i ∈ P ↔ i ∈ v :: P.erase v := (List.perm_cons_erase hvP).mem_iff
    rw [h2, List.mem_cons]
  refine ⟨hvP, ?_⟩
  have hPmemEq : ∀ i, i < D.length → (i ∈ (v :: P.erase v) ↔ i ∈ P) := by
    intro i _
    rw [List.mem_cons, ← hmemP]
  refine ⟨?_, ?_, ?_, ?_, ?_, ?_, ?_, hvalid.1, ?_, ?_, ?_, ?_, ?_, ?_, ?_, ?_,
    ?_, ?_, ?_, ?_, ?_⟩
  · rw [hfields.1]; exact hc.hNext
  · rw [hfields.2.2.1]; exact hc.hActive
  · intro i hi
    rw [hfields.2.1]
    exact hc.hElem i hi
  · intro p hp
    rw [hfields.2.1] at hp
    exact hc.hElemKeys p hp
  · cases parent with
    | none => rw [(placeElem_none_lists s e hdet.1 hdet.2).2]; exact hc.hChildKeys
    | some pe =>
      have hpe := hc.hEparent
      simp only at hpe
      have hpekey : pe ∈ s.childrenMap.map (fun kl => kl.1) := by
        rw [hc.hChildKeys, List.mem_reverse, List.mem_range]
        exact hpe.1
      rw [(placeElem_some_lists s e pe hdet.1 hdet.2 hpekey).2.2.2]
      exact hc.hChildKeys
  · rw [rootsIdx_congr D (v :: P.erase v) P hPmemEq]
    cases parent with
    | none =>
      have hroot : (parentPathAt D e).isNone = true := by
        have := hc.hEparent
        simp only at this
        rw [this]
        rfl
      refine ((placeElem_none_lists s e hdet.1 hdet.2).1).trans ?_
      refine (hc.hTop.cons e).trans ?_
      exact rootsIdx_cons_perm D P e hc.hE hroot hc.hENotPend
    | some pe =>
      have hpe := hc.hEparent
      simp only at hpe
      have hpekey : pe ∈ s.childrenMap.map (fun kl => kl.1) := by
        rw [hc.hChildKeys, List.mem_reverse, List.mem_range]
        exact hpe.1
      rw [(placeElem_some_lists s e pe hdet.1 hdet.2 hpekey).1]
      refine hc.hTop.trans ?_
      rw [rootsIdx_drop D (e :: P) ?_, rootsIdx_drop D P (fun i hi =>
        isNone_false_of_ne_none _ (hc.hPendParent i hi))]
      intro i hi
      rcases List.mem_cons.mp hi with rfl | hiP
      · rw [hpe.2]; rfl
      · exact isNone_false_of_ne_none _ (hc.hPendParent i hiP)
  · intro j hj
    rw [childIdx_congr D (v :: P.erase v) P j hPmemEq]
    cases parent with
    | none =>
      have hroot := hc.hEparent
      simp only at hroot
      rw [(placeElem_none_lists s e hdet.1 hdet.2).2]
      refine (hc.hChild j hj).trans ?_
      rw [childIdx_drop_head D P j e (by rw [hroot]; intro h; cases h)]
    | some pe =>
      have hpe := hc.hEparent
      simp only at hpe
      have hpekey : pe ∈ s.childrenMap.map (fun kl => kl.1) := by
        rw [hc.hChildKeys, List.mem_reverse, List.mem_range]
        exact hpe.1
      have hlists := placeElem_some_lists s e pe hdet.1 hdet.2 hpekey
      by_cases hje : j = pe
      · subst hje
        refine (hlists.2.1.trans ?_)
        refine ((hc.hChild j hj).cons e).trans ?_
        exact childIdx_cons_perm D P e j hc.hE hpe.2 hc.hENotPend
      · rw [hlists.2.2.1 j hje]
        refine (hc.hChild j hj).trans ?_
        rw [childIdx_drop_head D P j e ?_]
        rw [hpe.2]
        intro heq
        rw [Option.some.injEq] at heq
        exact hje (pathAt_inj D hndD j pe hj hpe.1 heq.symm)
  · exact hc.hPendNodup.not_mem_erase
  · exact ⟨hc.hE, hvalid.2⟩
  · intro i hi
    exact hc.hPendSub i (List.mem_of_mem_erase hi)
  · exact hc.hPendNodup.erase v
  · intro i hi
    exact hc.hPendParent i (List.mem_of_mem_erase hi)
  · intro i hi hiP hiv k hpar
    by_cases hie : i = e
    · subst hie
      cases parent with
      | none =>
        have := hc.hEparent
        simp only at this
        rw [this] at hpar
        cases hpar
      | some pe =>
        have hpe := hc.hEparent
        simp only at hpe
        rw [hpe.2, Option.some.injEq] at hpar
        rw [← hpar]
        exact pathAt_mem D pe hpe.1
    · have hiPfull : i ∉ P := by
        intro hmem
        rcases (hmemP i).mp hmem with rfl | hmem2
        · exact hiv rfl
        · exact hiP hmem2
      exact hc.hAttachedPar i hi hiPfull hie k hpar
  · intro i hi k hpar
    rw [hfields.2.2.2.1]
    exact hc.hPendBuffer i (List.mem_of_mem_erase hi) k hpar
  · intro i hi j hj k hpar hpath
    have hiP := List.mem_of_mem_erase hi
    rcases hc.hPendChain i hiP j hj k hpar hpath with hjP | hje
    · by_cases hjv : j = v
      · right; exact hjv
      · left
        exact (List.mem_erase_of_ne hjv).mpr hjP
    · subst hje
      have : i = v := huniq i hiP (hpath ▸ hpar)
      exact absurd this (by
        intro heq
        subst heq
        exact hc.hPendNodup.not_mem_erase hi)
  · intro kv hkv
    rw [hfields.2.2.2.1] at hkv
    exact hc.hBufValid kv hkv
  · rw [hfields.2.2.2.1]
    exact hc.hBufKeys
  · intro kv hkv hkvP
    rw [hfields.2.2.2.1] at hkv
    by_cases hkvPfull : kv.2 ∈ P
    · have hkvv : kv.2 = v := by
        rcases (hmemP kv.2).mp hkvPfull with h | h
        · exact h
        · exact absurd h hkvP
      have hval := hc.hBufValid kv hkv
      have hkey : kv.1 = pathAt D e := by
        have h1 := hval.2
        rw [hkvv] at h1
        rw [hvalid.2] at h1
        rw [Option.some.injEq] at h1
        exact h1.symm
      refine ⟨e, hc.hE, hkey.symm, ?_, hvne.symm⟩
      intro hmem
      exact hc.hENotPend ((hmemP e).mpr (Or.inr hmem))
    · rcases hc.hBufPend kv hkv hkvPfull with ⟨j, hj, hpathj, hjP, _⟩
      refine ⟨j, hj, hpathj, ?_, ?_⟩
      · intro hmem
        exact hjP ((hmemP j).mpr (Or.inr hmem))
      · intro heq
        subst heq
        exact hjP hvP
  · rw [hfields.2.2.2.1]
    exact (extractKey_sublist buf (pathAt D e) (v, rest) hex).trans hc.hBufSub
  · intro i hi k hpar
    have hiP := List.mem_of_mem_erase hi
    have hget := hc.hBufExtract i hiP k hpar
    have hkne : k ≠ pathAt D e := by
      intro heq
      subst heq
      have := huniq i hiP hpar
      subst this
      exact hc.hPendNodup.not_mem_erase hi
    rw [← hget]
    exact extractKey_mapGet_ne buf (pathAt D e) k (v, rest) hex hkne

theorem cascade_run (D : List PostIn) (hndD : PathsDistinct D) :
    ∀ (fuel : Nat) (buf : List (String × Nat)) (P : List Nat) (s : VState)
      (e : Nat) (parent : Option Nat), CascadeInv D P s e parent buf →
      buf.length ≤ fuel →
      ∃ P2, (∀ i ∈ P2, i ∈ P) ∧
        DeliveryInv D P2 (insertPostFuel fuel buf e parent s) := by
  intro fuel
  induction fuel with
  | zero =>
    intro buf P s e parent hc hlen
    have hbuf : buf = [] := List.eq_nil_of_length_eq_zero (Nat.le_zero.mp hlen)
    have hP : P = [] := by
      cases P with
      | nil => rfl
      | cons p ps =>
        have hpar := hc.hPendParent p (List.mem_cons_self p ps)
        cases hparc : parentPathAt D p with
        | none => exact absurd hparc hpar
        | some k =>
          have := hc.hBufExtract p (List.mem_cons_self p ps) k hparc
          rw [hbuf] at this
          cases this
    subst hP
    refine ⟨[], fun i hi => hi, ?_⟩
    exact cascade_terminal D hndD [] s e parent buf hc (fun i hi => absurd hi
      (List.not_mem_nil i))
  | succ f ih =>
    intro buf P s e parent hc hlen
    have hpath : pathOfEid (placeElem s e parent) e = pathAt D e := by
      rw [pathOfEid, (placeElem_fields s e parent).2.1, hc.hElem e hc.hE]
      rfl
    show ∃ P2, _ ∧ DeliveryInv D P2
      (match extractKey buf (pathOfEid (placeElem s e parent) e) with
        | none => placeElem s e parent
        | some vrest => insertPostFuel f vrest.2 vrest.1 (some e)
            (placeElem s e parent))
    rw [hpath]
    cases hex : extractKey buf (pathAt D e) with
    | none =>
      refine ⟨P, fun i hi => hi, ?_⟩
      apply cascade_terminal D hndD P s e parent buf hc
      intro i hi hpar
      have := hc.hBufExtract i hi (pathAt D e) hpar
      rw [(extractKey_none_iff buf (pathAt D e)).mp hex] at this
      cases this
    | some vrest =>
      rcases vrest with ⟨v, rest⟩
      have hstep := cascade_step D hndD P s e parent buf hc v rest hex
      have hlen2 : rest.length ≤ f := by
        have := extractKey_length_succ buf (pathAt D e) (v, rest) hex
        simp only at this
        omega
      rcases ih rest (P.erase v) (placeElem s e parent) v (some e) hstep.2
        hlen2 with ⟨P2, hsub, hinv⟩
      exact ⟨P2, fun i hi => List.mem_of_mem_erase (hsub i hi), hinv⟩

theorem rootsIdx_lift (done : List PostIn) (u : PostIn) (P : List Nat)
    (hpend : ∀ i ∈ P, parentPathAt done i ≠ none) :
    rootsIdx (done ++ [u]) (done.length :: P) = rootsIdx done [] := by
  rw [rootsIdx, rootsIdx, List.length_append, List.length_singleton,
    List.range_succ, List.filter_append]
  have h2 : (List.filter (fun i => (parentPathAt (done ++ [u]) i).isNone &&
      !((done.length :: P).contains i)) [done.length]) = [] := by
    simp
  rw [h2, List.append_nil]
  apply List.filter_congr
  intro i hi
  rw [List.mem_range] at hi
  rw [parentPathAt_extend done [u] i hi]
  by_cases hiP : i ∈ P
  · have := isNone_false_of_ne_none _ (hpend i hiP)
    simp [this]
  · simp [hiP, Nat.ne_of_lt hi]

theorem rootsIdx_lift_parent (done : List PostIn) (u : PostIn)
    (hu : optNonEmpty u.parentD ≠ none) :
    rootsIdx (done ++ [u]) [] = rootsIdx done [] := by
  rw [rootsIdx, rootsIdx, List.length_append, List.length_singleton,
    List.range_succ, List.filter_append]
  have h2 : (List.filter (fun i => (parentPathAt (done ++ [u]) i).isNone &&
      !(([] : List Nat).contains i)) [done.length]) = [] := by
    have : parentPathAt (done ++ [u]) done.length = optNonEmpty u.parentD :=
      parentPathAt_last done u
    simp [this, isNone_false_of_ne_none _ hu]
  rw [h2, List.append_nil]
  apply List.filter_congr
  intro i hi
  rw [List.mem_range] at hi
  rw [parentPathAt_extend done [u] i hi]

theorem childIdx_lift (done : List PostIn) (u : PostIn) (P : List Nat) (j : Nat)
    (hj : j < done.length) :
    childIdx (done ++ [u]) (done.length :: P) j = childIdx done P j := by
  rw [childIdx, childIdx, List.length_append, List.length_singleton,
    List.range_succ, List.filter_append]
  have h2 : (List.filter (fun i =>
      decide (parentPathAt (done ++ [u]) i =
        some (pathAt (done ++ [u]) j)) &&
      !((done.length :: P).contains i)) [done.length]) = [] := by
    simp
  rw [h2, List.append_nil]
  apply List.filter_congr
  intro i hi
  rw [List.mem_range] at hi
  rw [parentPathAt_extend done [u] i hi, pathAt_extend done [u] j hj]
  simp [Nat.ne_of_lt hi]

theorem childIdx_new_empty (done : List PostIn) (u : PostIn) (P : List Nat)
    (hfresh : u.path ∉ done.map (fun v => v.path))
    (hatt : ∀ i, i < done.length → i ∉ P → ∀ k,
      parentPathAt done i = some k → k ∈ done.map (fun v => v.path)) :
    childIdx (done ++ [u]) (done.length :: P) done.length = [] := by
  rw [List.eq_nil_iff_forall_not_mem]
  intro i hmem
  rw [mem_childIdx] at hmem
  rcases hmem with ⟨hi, hpar, hnotin⟩
  rw [List.length_append, List.length_singleton] at hi
  have hine : i ≠ done.length := fun heq => hnotin (heq ▸ List.mem_cons_self _ _)
  have hilt : i < done.length := by omega
  have hinP : i ∉ P := fun hm => hnotin (List.mem_cons_of_mem _ hm)
  rw [parentPathAt_extend done [u] i hilt, pathAt_last done u] at hpar
  exact hfresh (hatt i hilt hinP u.path hpar)

theorem cascadeInv_entry (done : List PostIn) (u : PostIn) (P : List Nat)
    (st : VState) (hinv : DeliveryInv done P st)
    (hfresh : u.path ∉ done.map (fun v => v.path)) (parent : Option Nat)
    (hpar : match parent with
      | none => optNonEmpty u.parentD = none
      | some pe => pe < (done ++ [u]).length ∧
          optNonEmpty u.parentD = some (pathAt (done ++ [u]) pe)) :
    CascadeInv (done ++ [u]) P (allocElem u st) done.length parent
      (allocElem u st).replyBuffer := by
  have hn := hinv.hNext
  have hlen : (done ++ [u]).length = done.length + 1 := by simp
  have hnP : done.length ∉ P := fun hm =>
    Nat.lt_irrefl done.length (hinv.hPendSub done.length hm)
  refine ⟨?_, ?_, ?_, ?_, ?_, ?_, ?_, ?_, hnP, ?_, ?_, hinv.hPendNodup, ?_, ?_,
    ?_, ?_, ?_, ?_, ?_, ?_, ?_⟩
  · show st.nextEid + 1 = (done ++ [u]).length
    omega
  · show mapSet st.activePosts u.path st.nextEid = withEids 0 (done ++ [u])
    rw [hinv.hActive, hn, mapSet_fresh _ _ _ (by
      rw [withEids_map_fst]
      exact hfresh), withEids_append]
    rw [Nat.zero_add]
  · intro i hi
    rw [hlen] at hi
    show mapGet ((st.nextEid, nodeDataOf u) :: st.elems) i = _
    by_cases hie : i = done.length
    · subst hie
      rw [mapGet, if_pos hn, List.getD_eq_getElem?_getD,
        List.getElem?_append_right (le_refl _)]
      simp
    · have hilt : i < done.length := by omega
      rw [mapGet, if_neg (by omega), getD_append_lt done [u] i hilt]
      exact hinv.hElem i hilt
  · intro p hp
    rw [hlen]
    rcases List.mem_cons.mp hp with rfl | hp2
    · simp only
      omega
    · have := hinv.hElemKeys p hp2
      omega
  · show ((st.nextEid, ([] : List Nat)) :: st.childrenMap).map _ = _
    rw [List.map_cons, hinv.hChildKeys, hlen, List.range_succ,
      List.reverse_append, hn]
    rfl
  · show st.topLevel.Perm _
    rw [rootsIdx_lift done u P hinv.hPendParent]
    exact hinv.hTop
  · intro j hj
    rw [hlen] at hj
    show ((mapGet ((st.nextEid, ([] : List Nat)) :: st.childrenMap) j).getD
      []).Perm _
    by_cases hje : j = done.length
    · subst hje
      rw [mapGet, if_pos hn,
        childIdx_new_empty done u P hfresh hinv.hAttachedPar]
      simp
    · have hjlt : j < done.length := by omega
      rw [mapGet, if_neg (by omega), childIdx_lift done u P j hjlt]
      exact hinv.hChild j hjlt
  · rw [hlen]
    omega
  · cases parent with
    | none =>
      simp only at hpar
      simp only
      rw [parentPathAt_last done u]
      exact hpar
    | some pe =>
      simp only at hpar
      simp only
      rw [parentPathAt_last done u]
      exact hpar
  · intro i hi
    have := hinv.hPendSub i hi
    omega
  · intro i hi
    rw [parentPathAt_extend done [u] i (hinv.hPendSub i hi)]
    exact hinv.hPendParent i hi
  · intro i hi hiP hine k hpk
    have hilt : i < done.length := by
      rw [hlen] at hi
      omega
    rw [parentPathAt_extend done [u] i hilt] at hpk
    have := hinv.hAttachedPar i hilt hiP k hpk
    rw [List.map_append]
    exact List.mem_append_left _ this
  · intro i hi k hpk
    rw [parentPathAt_extend done [u] i (hinv.hPendSub i hi)] at hpk
    show mapGet st.replyBuffer k = some i
    exact hinv.hPendBuffer i hi k hpk
  · intro i hi j hj k hpk hpath
    by_cases hje : j = done.length
    · right; exact hje
    · left
      have hjlt : j < done.length := by
        rw [hlen] at hj
        omega
      rw [parentPathAt_extend done [u] i (hinv.hPendSub i hi)] at hpk
      rw [pathAt_extend done [u] j hjlt] at hpath
      exact hinv.hPendChain i hi j hjlt k hpk hpath
  · intro kv hkv
    have := hinv.hBufValid kv hkv
    rw [hlen, parentPathAt_extend done [u] kv.2 this.1]
    exact ⟨by omega, this.2⟩
  · exact hinv.hBufKeys
  · intro kv hkv hkvP
    rcases hinv.hBufPend kv hkv hkvP with ⟨j, hj, hpath, hjP⟩
    refine ⟨j, by rw [hlen]; omega, ?_, hjP, by omega⟩
    rw [pathAt_extend done [u] j hj]
    exact hpath
  · exact List.Sublist.refl _
  · intro i hi k hpk
    rw [parentPathAt_extend done [u] i (hinv.hPendSub i hi)] at hpk
    show mapGet st.replyBuffer k = some i
    exact hinv.hPendBuffer i hi k hpk

theorem deliveryInv_of_fields (D : List PostIn) (P : List Nat) (s s2 : VState)
    (h1 : s2.nextEid = s.nextEid) (h2 : s2.elems = s.elems)
    (h3 : s2.activePosts = s.activePosts) (h4 : s2.replyBuffer = s.replyBuffer)
    (h5 : s2.topLevel = s.topLevel) (h6 : s2.childrenMap = s.childrenMap)
    (hinv : DeliveryInv D P s) : DeliveryInv D P s2 := by
  refine ⟨?_, ?_, ?_, ?_, ?_, ?_, ?_, hinv.hPendSub, hinv.hPendNodup,
    hinv.hPendParent, hinv.hAttachedPar, ?_, hinv.hPendChain, ?_, ?_, ?_⟩
  · rw [h1]; exact hinv.hNext
  · rw [h3]; exact hinv.hActive
  · intro i hi
    rw [h2]
    exact hinv.hElem i hi
  · intro p hp
    rw [h2] at hp
    exact hinv.hElemKeys p hp
  · rw [h6]; exact hinv.hChildKeys
  · rw [h5]; exact hinv.hTop
  · intro j hj
    rw [h6]
    exact hinv.hChild j hj
  · intro i hi k hpk
    rw [h4]
    exact hinv.hPendBuffer i hi k hpk
  · intro kv hkv
    rw [h4] at hkv
    exact hinv.hBufValid kv hkv
  · rw [h4]; exact hinv.hBufKeys
  · intro kv hkv
    rw [h4] at hkv
    exact hinv.hBufPend kv hkv

theorem replyModeOffSt_fields (postId : String) (st : VState) :
    (replyModeOffSt postId st).nextEid = st.nextEid ∧
    (replyModeOffSt postId st).elems = st.elems ∧
    (replyModeOffSt postId st).activePosts = st.activePosts ∧
    (replyModeOffSt postId st).replyBuffer = st.replyBuffer ∧
    (replyModeOffSt postId st).topLevel = st.topLevel ∧
    (replyModeOffSt postId st).childrenMap = st.childrenMap := by
  rw [replyModeOffSt]
  cases mapGet st.activePosts postId with
  | none => exact ⟨rfl, rfl, rfl, rfl, rfl, rfl⟩
  | some e => exact ⟨rfl, rfl, rfl, rfl, rfl, rfl⟩

theorem allocElem_active (done : List PostIn) (u : PostIn) (P : List Nat)
    (st : VState) (hinv : DeliveryInv done P st)
    (hfresh : u.path ∉ done.map (fun v => v.path)) :
    (allocElem u st).activePosts = withEids 0 (done ++ [u]) := by
  show mapSet st.activePosts u.path st.nextEid = withEids 0 (done ++ [u])
  rw [hinv.hActive, hinv.hNext, mapSet_fresh _ _ _ (by
    rw [withEids_map_fst]
    exact hfresh), withEids_append, Nat.zero_add]

theorem no_second_orphan (order done rest : List PostIn) (u : PostIn)
    (horder : order = done ++ u :: rest) (hpp : ParentsPresent order)
    (hone : AtMostOneEarlyOrphan order) (pp2 : String)
    (hpar : optNonEmpty u.parentD = some pp2)
    (hppfresh : pp2 ∉ (done ++ [u]).map (fun v => v.path)) (i : Nat)
    (hilt : i < done.length) (hiped : parentPathAt done i = some pp2) : False := by
  have horder2 : order = (done ++ [u]) ++ rest := by
    rw [horder, List.append_assoc, List.singleton_append]
  have hlen : order.length = done.length + 1 + rest.length := by
    rw [horder]
    simp
    omega
  have hci : parentPathAt order i = some pp2 := by
    rw [horder2, parentPathAt_extend (done ++ [u]) rest i (by simp; omega),
      parentPathAt_extend done [u] i hilt]
    exact hiped
  have hmem : order.getD i default ∈ order :=
    getD_mem_of_lt order i (by omega)
  have hppmem : pp2 ∈ order.map (fun v => v.path) := by
    refine hpp (order.getD i default) hmem pp2 ?_
    exact hci
  rcases pathAt_exists_of_mem order pp2 hppmem with ⟨kk, hkk, hkkpath⟩
  have hkkgt : done.length < kk := by
    by_contra hle
    push_neg at hle
    have hkklt : kk < (done ++ [u]).length := by simp; omega
    have hkkpre : pathAt order kk = pathAt (done ++ [u]) kk := by
      rw [horder2, pathAt_extend (done ++ [u]) rest kk hkklt]
    apply hppfresh
    rw [← hkkpath, hkkpre]
    exact pathAt_mem (done ++ [u]) kk hkklt
  apply hone i done.length kk hilt hkkgt hkk
  · show parentPathAt order i = some (pathAt order kk)
    rw [hci, hkkpath]
  · show parentPathAt order done.length = some (pathAt order kk)
    have hu : order.getD done.length default = u := by
      rw [horder]
      exact getD_append_self done u rest
    rw [parentPathAt, hu, hkkpath, hpar]

theorem deliveryInv_buffered (order done rest : List PostIn) (u : PostIn)
    (horder : order = done ++ u :: rest) (hpp : ParentsPresent order)
    (hone : AtMostOneEarlyOrphan order) (P : List Nat) (st : VState)
    (hinv : DeliveryInv done P st)
    (hfresh : u.path ∉ done.map (fun v => v.path)) (pp : String)
    (hpar : optNonEmpty u.parentD = some pp)
    (hppfresh : pp ∉ (done ++ [u]).map (fun v => v.path)) :
    DeliveryInv (done ++ [u]) (done.length :: P)
      { allocElem u st with
          replyBuffer := mapSet (allocElem u st).replyBuffer pp st.nextEid } := by
  have hn := hinv.hNext
  have hlen : (done ++ [u]).length = done.length + 1 := by simp
  have hnP : done.length ∉ P := fun hm =>
    Nat.lt_irrefl done.length (hinv.hPendSub done.length hm)
  have hparD : parentPathAt (done ++ [u]) done.length = some pp := by
    rw [parentPathAt_last done u, hpar]
  refine ⟨?_, ?_, ?_, ?_, ?_, ?_, ?_, ?_, ?_, ?_, ?_, ?_, ?_, ?_, ?_, ?_⟩
  · show st.nextEid + 1 = (done ++ [u]).length
    omega
  · exact allocElem_active done u P st hinv hfresh
  · intro i hi
    rw [hlen] at hi
    show mapGet ((st.nextEid, nodeDataOf u) :: st.elems) i = _
    by_cases hie : i = done.length
    · subst hie
      rw [mapGet, if_pos hn, List.getD_eq_getElem?_getD,
        List.getElem?_append_right (le_refl _)]
      simp
    · have hilt : i < done.length := by omega
      rw [mapGet, if_neg (by omega), getD_append_lt done [u] i hilt]
      exact hinv.hElem i hilt
  · intro p hp
    rw [hlen]
    rcases List.mem_cons.mp hp with rfl | hp2
    · simp only
      omega
    · have := hinv.hElemKeys p hp2
      omega
  · show ((st.nextEid, ([] : List Nat)) :: st.childrenMap).map _ = _
    rw [List.map_cons, hinv.hChildKeys, hlen, List.range_succ,
      List.reverse_append, hn]
    rfl
  · show st.topLevel.Perm _
    rw [rootsIdx_lift_parent done u (by rw [hpar]; intro h; cases h)]
    exact hinv.hTop
  · intro j hj
    rw [hlen] at hj
    show ((mapGet ((st.nextEid, ([] : List Nat)) :: st.childrenMap) j).getD
      []).Perm _
    by_cases hje : j = done.length
    · subst hje
      rw [mapGet, if_pos hn,
        childIdx_new_empty done u P hfresh hinv.hAttachedPar]
      simp
    · have hjlt : j < done.length := by omega
      rw [mapGet, if_neg (by omega), childIdx_lift done u P j hjlt]
      exact hinv.hChild j hjlt
  · intro i hi
    rcases List.mem_cons.mp hi with rfl | hi2
    · omega
    · have := hinv.hPendSub i hi2
      omega
  · exact List.nodup_cons.mpr ⟨hnP, hinv.hPendNodup⟩
  · intro i hi
    rcases List.mem_cons.mp hi with rfl | hi2
    · rw [hparD]
      intro h
      cases h
    · rw [parentPathAt_extend done [u] i (hinv.hPendSub i hi2)]
      exact hinv.hPendParent i hi2
  · intro i hi hiP k hpk
    have hine : i ≠ done.length := fun heq =>
      hiP (heq ▸ List.mem_cons_self _ _)
    have hilt : i < done.length := by
      rw [hlen] at hi
      omega
    have hinP : i ∉ P := fun hm => hiP (List.mem_cons_of_mem _ hm)
    rw [parentPathAt_extend done [u] i hilt] at hpk
    have := hinv.hAttachedPar i hilt hinP k hpk
    rw [List.map_append]
    exact List.mem_append_left _ this
  · intro i hi k hpk
    show mapGet (mapSet st.replyBuffer pp st.nextEid) k = some i
    rcases List.mem_cons.mp hi with rfl | hi2
    · rw [hparD] at hpk
      rw [Option.some.injEq] at hpk
      subst hpk
      rw [mapGet_mapSet_self, hn]
    · have hilt := hinv.hPendSub i hi2
      rw [parentPathAt_extend done [u] i hilt] at hpk
      have hkne : k ≠ pp := by
        intro heq
        subst heq
        exact no_second_orphan order done rest u horder hpp hone k hpar
          hppfresh i hilt hpk
      rw [mapGet_mapSet_ne st.replyBuffer pp k st.nextEid hkne]
      exact hinv.hPendBuffer i hi2 k hpk
  · intro i hi j hj k hpk hpath
    rcases List.mem_cons.mp hi with rfl | hi2
    · rw [hparD, Option.some.injEq] at hpk
      subst hpk
      exfalso
      apply hppfresh
      rw [← hpath]
      exact pathAt_mem (done ++ [u]) j hj
    · have hilt := hinv.hPendSub i hi2
      rw [parentPathAt_extend done [u] i hilt] at hpk
      by_cases hje : j = done.length
      · exact hje ▸ List.mem_cons_self _ _
      · have hjlt : j < done.length := by
          rw [hlen] at hj
          omega
        rw [pathAt_extend done [u] j hjlt] at hpath
        exact List.mem_cons_of_mem _
          (hinv.hPendChain i hi2 j hjlt k hpk hpath)
  · intro kv hkv
    rcases mem_mapSet st.replyBuffer pp st.nextEid kv hkv with rfl | hkv2
    · constructor
      · simp only
        omega
      · simp only
        rw [hn]
        exact hparD
    · have := hinv.hBufValid kv hkv2
      rw [hlen, parentPathAt_extend done [u] kv.2 this.1]
      exact ⟨by omega, this.2⟩
  · show ((mapSet st.replyBuffer pp st.nextEid).map _).Nodup
    exact mapSet_keys_nodup st.replyBuffer pp st.nextEid hinv.hBufKeys
  · intro kv hkv hkvP
    rcases mem_mapSet st.replyBuffer pp st.nextEid kv hkv with rfl | hkv2
    · exfalso
      apply hkvP
      simp only [hn]
      exact List.mem_cons_self _ _
    · have hkvnP : kv.2 ∉ P := fun hm => hkvP (List.mem_cons_of_mem _ hm)
      rcases hinv.hBufPend kv hkv2 hkvnP with ⟨j, hj, hpath, hjP⟩
      refine ⟨j, by rw [hlen]; omega, ?_, ?_⟩
      · rw [pathAt_extend done [u] j hj]
        exact hpath
      · intro hm
        rcases List.mem_cons.mp hm with rfl | hm2
        · omega
        · exact hjP hm2

theorem handleUpdate_step (order : List PostIn) (username : String)
    (hnd : PathsDistinct order) (hpp : ParentsPresent order)
    (hone : AtMostOneEarlyOrphan order) (done : List PostIn) (u : PostIn)
    (rest : List PostIn) (horder : order = done ++ u :: rest) (P : List Nat)
    (st : VState) (hinv : DeliveryInv done P st) :
    ∃ P2, DeliveryInv (done ++ [u]) P2 (handleUpdate username u st) := by
  have horder2 : order = (done ++ [u]) ++ rest := by
    rw [horder, List.append_assoc, List.singleton_append]
  have hndD : PathsDistinct (done ++ [u]) := by
    have hx : (order.map (fun v => v.path)).Nodup := hnd
    rw [horder2, List.map_append] at hx
    exact hx.of_append_left
  have hfresh : u.path ∉ done.map (fun v => v.path) := by
    have h1 : ((done ++ [u]).map (fun v => v.path)).Nodup := hndD
    rw [List.map_append, List.nodup_append] at h1
    intro hm
    exact h1.2.2 hm (by simp)
  have hget : mapGet st.activePosts u.path = none := by
    rw [hinv.hActive, mapGet_withEids_none_iff]
    exact hfresh
  have hcond : ¬(((mapGet st.activePosts u.path).isSome &&
      u.reactions.isSome) = true) := by
    rw [hget]
    simp
  cases hpar : optNonEmpty u.parentD with
  | none =>
    have hred : handleUpdate username u st =
        insertPost (allocElem u st).replyBuffer st.nextEid none
          (allocElem u st) := by
      rw [handleUpdate, if_neg hcond]
      simp only [hpar]
    rw [hred, insertPost, hinv.hNext]
    have hentry := cascadeInv_entry done u P st hinv hfresh none
      (by simp only; exact hpar)
    rcases cascade_run (done ++ [u]) hndD (allocElem u st).replyBuffer.length
      (allocElem u st).replyBuffer P (allocElem u st) done.length none hentry
      (le_refl _) with ⟨P2, _, hres⟩
    exact ⟨P2, hres⟩
  | some pp =>
    cases hlook : mapGet (allocElem u st).activePosts pp with
    | none =>
      have hred : handleUpdate username u st =
          { allocElem u st with
              replyBuffer :=
                mapSet (allocElem u st).replyBuffer pp st.nextEid } := by
        rw [handleUpdate, if_neg hcond]
        simp only [hpar, hlook]
      rw [hred]
      have hppfresh : pp ∉ (done ++ [u]).map (fun v => v.path) := by
        rw [allocElem_active done u P st hinv hfresh] at hlook
        exact (mapGet_withEids_none_iff 0 (done ++ [u]) pp).mp hlook
      exact ⟨done.length :: P, deliveryInv_buffered order done rest u horder
        hpp hone P st hinv hfresh pp hpar hppfresh⟩
    | some pe =>
      have hred : handleUpdate username u st =
          (if u.createdBy = username then
            replyModeOffSt pp (insertPost (allocElem u st).replyBuffer
              st.nextEid (some pe) (allocElem u st))
          else insertPost (allocElem u st).replyBuffer st.nextEid (some pe)
            (allocElem u st)) := by
        rw [handleUpdate, if_neg hcond]
        simp only [hpar, hlook]
      rw [allocElem_active done u P st hinv hfresh] at hlook
      rcases mapGet_withEids_some 0 (done ++ [u]) pp pe hlook with
        ⟨j, hj, hpe, hpath⟩
      rw [Nat.zero_add] at hpe
      subst hpe
      have hentry := cascadeInv_entry done u P st hinv hfresh (some pe)
        (by
          simp only
          rw [hpath]
          exact ⟨hj, hpar⟩)
      rcases cascade_run (done ++ [u]) hndD (allocElem u st).replyBuffer.length
        (allocElem u st).replyBuffer P (allocElem u st) done.length (some pe)
        hentry (le_refl _) with ⟨P2, _, hres⟩
      refine ⟨P2, ?_⟩
      rw [hred]
      by_cases hby : u.createdBy = username
      · rw [if_pos hby]
        have hf := replyModeOffSt_fields pp (insertPost
          (allocElem u st).replyBuffer st.nextEid (some pe) (allocElem u st))
        refine deliveryInv_of_fields _ _ _ _ hf.1 hf.2.1 hf.2.2.1 hf.2.2.2.1
          hf.2.2.2.2.1 hf.2.2.2.2.2 ?_
        rw [insertPost, hinv.hNext]
        exact hres
      · rw [if_neg hby]
        rw [insertPost, hinv.hNext]
        exact hres

theorem list_exists_min_image (f : Nat → Nat) :
    ∀ (l : List Nat), l ≠ [] → ∃ a ∈ l, ∀ b ∈ l, f a ≤ f b := by
  intro l
  induction l with
  | nil => intro h; exact absurd rfl h
  | cons hd tl ih =>
    intro _
    cases tl with
    | nil =>
      refine ⟨hd, List.mem_cons_self _ _, ?_⟩
      intro b hb
      rcases List.mem_cons.mp hb with rfl | hb2
      · exact le_refl _
      · cases hb2
    | cons hd2 tl2 =>
      rcases ih (by simp) with ⟨a, ha, hmin⟩
      by_cases hle : f hd ≤ f a
      · refine ⟨hd, List.mem_cons_self _ _, ?_⟩
        intro b hb
        rcases List.mem_cons.mp hb with rfl | hb2
        · exact le_refl _
        · exact le_trans hle (hmin b hb2)
      · refine ⟨a, List.mem_cons_of_mem _ ha, ?_⟩
        intro b hb
        rcases List.mem_cons.mp hb with rfl | hb2
        · omega
        · exact hmin b hb2

theorem deliver_suffix (order : List PostIn) (username : String)
    (hnd : PathsDistinct order) (hpp : ParentsPresent order)
    (hone : AtMostOneEarlyOrphan order) :
    ∀ (rest done : List PostIn) (P : List Nat) (st : VState),
      order = done ++ rest → DeliveryInv done P st →
      ∃ P2, DeliveryInv order P2
        (List.foldl (fun s u => handleUpdate username u s) st rest) := by
  intro rest
  induction rest with
  | nil =>
    intro done P st horder hinv
    rw [List.append_nil] at horder
    subst horder
    exact ⟨P, hinv⟩
  | cons u rest2 ih =>
    intro done P st horder hinv
    rcases handleUpdate_step order username hnd hpp hone done u rest2 horder
      P st hinv with ⟨P1, hinv1⟩
    have horder2 : order = (done ++ [u]) ++ rest2 := by
      rw [horder, List.append_assoc, List.singleton_append]
    rw [List.foldl_cons]
    exact ih (done ++ [u]) P1 (handleUpdate username u st) horder2 hinv1

theorem deliveryInv_init : DeliveryInv [] [] initState := by
  refine ⟨rfl, rfl, ?_, ?_, rfl, ?_, ?_, ?_, List.nodup_nil, ?_, ?_, ?_, ?_,
    ?_, ?_, ?_⟩
  · intro i hi
    cases hi
  · intro p hp
    cases hp
  · show ([] : List Nat).Perm (rootsIdx [] [])
    rw [rootsIdx]
    exact List.Perm.refl _
  · intro j hj
    cases hj
  · intro i hi
    cases hi
  · intro i hi
    cases hi
  · intro i hi
    cases hi
  · intro i hi
    cases hi
  · intro i hi
    cases hi
  · intro kv hkv
    cases hkv
  · exact List.nodup_nil
  · intro kv hkv
    cases hkv

theorem deliverAll_inv (order : List PostIn) (username : String)
    (hnd : PathsDistinct order) (hpp : ParentsPresent order)
    (hone : AtMostOneEarlyOrphan order) :
    ∃ P, DeliveryInv order P (deliverAll username order initState) := by
  rw [deliverAll]
  exact deliver_suffix order username hnd hpp hone order [] [] initState
    (by rw [List.nil_append]) deliveryInv_init

theorem pend_empty (order : List PostIn) (rank : String → Nat)
    (hpp : ParentsPresent order) (hro : RankOrdered rank order) (P : List Nat)
    (st : VState) (hinv : DeliveryInv order P st) : P = [] := by
  by_contra hne
  rcases list_exists_min_image (fun i => rank (pathAt order i)) P hne with
    ⟨i, hiP, hmin⟩
  have hilt := hinv.hPendSub i hiP
  cases hpk : parentPathAt order i with
  | none => exact hinv.hPendParent i hiP hpk
  | some k =>
    have hmem : order.getD i default ∈ order := getD_mem_of_lt order i hilt
    have hkmem : k ∈ order.map (fun v => v.path) :=
      hpp (order.getD i default) hmem k hpk
    rcases pathAt_exists_of_mem order k hkmem with ⟨j, hj, hpathj⟩
    have hjP : j ∈ P := hinv.hPendChain i hiP j hj k hpk hpathj
    have hrank : rank (pathAt order j) < rank (pathAt order i) := by
      have := hro (order.getD j default) (getD_mem_of_lt order j hj)
        (order.getD i default) hmem ?_
      · exact this
      · show optNonEmpty (order.getD i default).parentD =
          some ((order.getD j default).path)
        rw [← hpathj] at hpk
        exact hpk
    have := hmin j hjP
    simp only at this
    omega

theorem flatten_map_singleton {α : Type} (l : List α) :
    (l.map (fun e => [e])).flatten = l := by
  induction l with
  | nil => rfl
  | cons hd tl ih => simp [ih]

theorem flatten_cons_perm {α : Type} (l : List α) (g : α → List α) :
    ((l.map (fun e => e :: g e)).flatten).Perm (l ++ (l.map g).flatten) := by
  induction l with
  | nil => simp
  | cons hd tl ih =>
    simp only [List.map_cons, List.flatten_cons, List.cons_append]
    refine List.Perm.cons hd ?_
    refine (ih.append_left (g hd)).trans ?_
    rw [← List.append_assoc, ← List.append_assoc]
    exact (List.perm_append_comm.append_right _)

theorem flatten_flatten_eq {α β : Type} (l : List α) (h : α → List β)
    (d : β → List β) :
    (l.map (fun e => ((h e).map d).flatten)).flatten =
      (((l.map h).flatten).map d).flatten := by
  induction l with
  | nil => rfl
  | cons hd tl ih =>
    simp only [List.map_cons, List.flatten_cons, List.map_append,
      List.flatten_append, ih]

theorem mem_chlF (par : Nat → Option Nat) (n j c : Nat) :
    c ∈ chlF par n j ↔ c < n ∧ par c = some j := by
  simp [chlF, List.mem_filter, List.mem_range]

theorem chlF_nodup (par : Nat → Option Nat) (n j : Nat) :
    (chlF par n j).Nodup :=
  (List.nodup_range n).filter _

theorem levelF_nodup (par : Nat → Option Nat) (n k : Nat) :
    (levelF par n k).Nodup := by
  cases k with
  | zero => exact (List.nodup_range n).filter _
  | succ k2 => exact (List.nodup_range n).filter _

theorem levelF_subset_range (par : Nat → Option Nat) (n k c : Nat)
    (h : c ∈ levelF par n k) : c < n := by
  cases k with
  | zero =>
    rw [levelF, List.mem_filter, List.mem_range] at h
    exact h.1
  | succ k2 =>
    rw [levelF, List.mem_filter, List.mem_range] at h
    exact h.1

theorem mem_levelF_zero (par : Nat → Option Nat) (n c : Nat) :
    c ∈ levelF par n 0 ↔ c < n ∧ par c = none := by
  rw [levelF, List.mem_filter, List.mem_range]
  cases hp : par c <;> simp

theorem mem_levelF_succ (par : Nat → Option Nat) (n k c : Nat) :
    c ∈ levelF par n (k + 1) ↔
      c < n ∧ ∃ j, par c = some j ∧ j ∈ levelF par n k := by
  rw [levelF, List.mem_filter, List.mem_range]
  cases hp : par c with
  | none => simp
  | some j => simp

theorem chl_regroup (par : Nat → Option Nat) (n : Nat) (L : List Nat)
    (hndL : L.Nodup) :
    ((L.map (chlF par n)).flatten).Perm
      ((List.range n).filter (fun c =>
        match par c with
        | some j => L.contains j
        | none => false)) := by
  apply (List.perm_ext_iff_of_nodup ?_ ?_).mpr
  · intro x
    rw [List.mem_flatten, List.mem_filter, List.mem_range]
    constructor
    · rintro ⟨lx, hlx, hx⟩
      rcases List.mem_map.mp hlx with ⟨e, heL, rfl⟩
      rw [mem_chlF] at hx
      refine ⟨hx.1, ?_⟩
      rw [hx.2]
      simp [heL]
    · rintro ⟨hxn, hmatch⟩
      cases hp : par x with
      | none =>
        rw [hp] at hmatch
        simp at hmatch
      | some j =>
        rw [hp] at hmatch
        have hmem2 : j ∈ L := by simpa using hmatch
        refine ⟨chlF par n j, List.mem_map.mpr ⟨j, hmem2, rfl⟩, ?_⟩
        rw [mem_chlF]
        exact ⟨hxn, hp⟩
  · rw [List.nodup_flatten]
    constructor
    · intro lx hlx
      rcases List.mem_map.mp hlx with ⟨e, _, rfl⟩
      exact chlF_nodup par n e
    · rw [List.pairwise_map]
      refine hndL.imp ?_
      intro a b hab x hxa hxb
      rw [mem_chlF] at hxa hxb
      apply hab
      have := hxa.2.symm.trans hxb.2
      rw [Option.some.injEq] at this
      exact this
  · exact (List.nodup_range n).filter _

theorem desc_level_step (par : Nat → Option Nat) (n : Nat) (fuel : Nat)
    (L : List Nat) (hndL : L.Nodup) :
    ((L.map (descF par n (fuel + 1))).flatten).Perm
      (L ++ (((List.range n).filter (fun c =>
        match par c with
        | some j => L.contains j
        | none => false)).map (descF par n fuel)).flatten) := by
  have h1 : (L.map (descF par n (fuel + 1))).flatten =
      (L.map (fun e => e :: ((chlF par n e).map (descF par n fuel)).flatten)).flatten := by
    rfl
  rw [h1]
  refine (flatten_cons_perm L _).trans ?_
  apply List.Perm.append_left
  rw [flatten_flatten_eq L (chlF par n) (descF par n fuel)]
  exact ((chl_regroup par n L hndL).map (descF par n fuel)).flatten

theorem level_rank_bound (par : Nat → Option Nat) (n : Nat) (rk : Nat → Nat)
    (hedge : ∀ c j, c < n → par c = some j → j < n ∧ rk j < rk c) :
    ∀ k c, c ∈ levelF par n k → k ≤ rk c := by
  intro k
  induction k with
  | zero => intro c _; exact Nat.zero_le _
  | succ k2 ih =>
    intro c hc
    rw [mem_levelF_succ] at hc
    rcases hc with ⟨hcn, j, hpj, hjk⟩
    have h1 := ih j hjk
    have h2 := (hedge c j hcn hpj).2
    omega

theorem level_disjoint (par : Nat → Option Nat) (n : Nat) :
    ∀ a d c, c ∈ levelF par n a → c ∈ levelF par n (a + d + 1) → False := by
  intro a
  induction a with
  | zero =>
    intro d c hc0 hc1
    rw [mem_levelF_zero] at hc0
    have : 0 + d + 1 = d + 1 := by omega
    rw [this, mem_levelF_succ] at hc1
    rcases hc1 with ⟨_, j, hpj, _⟩
    rw [hc0.2] at hpj
    cases hpj
  | succ a2 ih =>
    intro d c hc0 hc1
    rw [mem_levelF_succ] at hc0
    have : a2 + 1 + d + 1 = (a2 + d + 1) + 1 := by omega
    rw [this, mem_levelF_succ] at hc1
    rcases hc0 with ⟨_, j, hpj, hjmem⟩
    rcases hc1 with ⟨_, j2, hpj2, hj2mem⟩
    rw [hpj, Option.some.injEq] at hpj2
    subst hpj2
    exact ih d j hjmem hj2mem

theorem level_exists (par : Nat → Option Nat) (n : Nat) (rk : Nat → Nat)
    (hedge : ∀ c j, c < n → par c = some j → j < n ∧ rk j < rk c) :
    ∀ r c, c < n → rk c ≤ r → ∃ k, k ≤ rk c ∧ c ∈ levelF par n k := by
  intro r
  induction r with
  | zero =>
    intro c hcn hr
    cases hp : par c with
    | none =>
      refine ⟨0, Nat.zero_le _, ?_⟩
      rw [mem_levelF_zero]
      exact ⟨hcn, hp⟩
    | some j =>
      have := (hedge c j hcn hp).2
      omega
  | succ r2 ih =>
    intro c hcn hr
    cases hp : par c with
    | none =>
      refine ⟨0, Nat.zero_le _, ?_⟩
      rw [mem_levelF_zero]
      exact ⟨hcn, hp⟩
    | some j =>
      have hj := hedge c j hcn hp
      rcases ih j hj.1 (by omega) with ⟨k, hk, hmem⟩
      refine ⟨k + 1, by omega, ?_⟩
      rw [mem_levelF_succ]
      exact ⟨hcn, j, hp, hmem⟩

theorem desc_levels (par : Nat → Option Nat) (n : Nat) :
    ∀ (m k : Nat),
      (((levelF par n k).map (descF par n m)).flatten).Perm
        (((List.range (m + 1)).map (fun t => levelF par n (k + t))).flatten) := by
  intro m
  induction m with
  | zero =>
    intro k
    have h1 : descF par n 0 = fun e => [e] := rfl
    rw [h1, flatten_map_singleton]
    have h2 : (List.map (fun t => levelF par n (k + t)) (List.range 1)).flatten
        = levelF par n k := by
      have h3 : List.range 1 = [0] := rfl
      rw [h3, List.map_cons, List.map_nil, List.flatten_cons,
        List.flatten_nil, List.append_nil, Nat.add_zero]
    rw [h2]
  | succ m2 ih =>
    intro k
    have hnext : (List.range n).filter (fun c =>
        match par c with
        | some j => (levelF par n k).contains j
        | none => false) = levelF par n (k + 1) := rfl
    refine (desc_level_step par n m2 (levelF par n k)
      (levelF_nodup par n k)).trans ?_
    rw [hnext]
    refine ((ih (k + 1)).append_left (levelF par n k)).trans ?_
    rw [List.range_succ_eq_map (m2 + 1), List.map_cons, List.flatten_cons,
      Nat.add_zero, List.map_map]
    apply List.Perm.append_left
    have hcong : ((List.range (m2 + 1)).map
        ((fun t => levelF par n (k + t)) ∘ (· + 1))) =
        ((List.range (m2 + 1)).map (fun t => levelF par n (k + 1 + t))) := by
      apply List.map_congr_left
      intro t _
      show levelF par n (k + (t + 1)) = levelF par n (k + 1 + t)
      congr 1
      omega
    rw [hcong]

theorem levels_cover (par : Nat → Option Nat) (n : Nat) (rk : Nat → Nat)
    (hedge : ∀ c j, c < n → par c = some j → j < n ∧ rk j < rk c)
    (hbound : ∀ i, i < n → rk i < n) :
    (((List.range (n + 1)).map (fun t => levelF par n t)).flatten).Perm
      (List.range n) := by
  apply (List.perm_ext_iff_of_nodup ?_ (List.nodup_range n)).mpr
  · intro x
    rw [List.mem_flatten, List.mem_range]
    constructor
    · rintro ⟨lx, hlx, hx⟩
      rcases List.mem_map.mp hlx with ⟨t, _, rfl⟩
      exact levelF_subset_range par n t x hx
    · intro hxn
      rcases level_exists par n rk hedge (rk x) x hxn (le_refl _) with
        ⟨k, hk, hmem⟩
      refine ⟨levelF par n k, List.mem_map.mpr ⟨k, ?_, rfl⟩, hmem⟩
      rw [List.mem_range]
      have := hbound x hxn
      omega
  · rw [List.nodup_flatten]
    constructor
    · intro lx hlx
      rcases List.mem_map.mp hlx with ⟨t, _, rfl⟩
      exact levelF_nodup par n t
    · rw [List.pairwise_map]
      refine (List.pairwise_lt_range (n + 1)).imp ?_
      intro a b hab x hxa hxb
      have hd : b = a + (b - a - 1) + 1 := by omega
      rw [hd] at hxb
      exact level_disjoint par n a (b - a - 1) x hxa hxb

theorem canonical_flatten (par : Nat → Option Nat) (n : Nat) (rk : Nat → Nat)
    (hedge : ∀ c j, c < n → par c = some j → j < n ∧ rk j < rk c)
    (hbound : ∀ i, i < n → rk i < n) :
    (((levelF par n 0).map (descF par n n)).flatten).Perm (List.range n) := by
  refine (desc_levels par n n 0).trans ?_
  have hcong : ((List.range (n + 1)).map (fun t => levelF par n (0 + t))) =
      ((List.range (n + 1)).map (fun t => levelF par n t)) := by
    apply List.map_congr_left
    intro t _
    congr 1
    omega
  rw [hcong]
  exact levels_cover par n rk hedge hbound

theorem parIdx_eq_some_iff (order : List PostIn) (hnd : PathsDistinct order)
    (i j : Nat) :
    parIdx order i = some j ↔
      j < order.length ∧ parentPathAt order i = some (pathAt order j) := by
  constructor
  · intro h
    rw [parIdx] at h
    cases hp : parentPathAt order i with
    | none =>
      rw [hp] at h
      cases h
    | some k =>
      rw [hp] at h
      have hpred := List.find?_some h
      have hmem := List.mem_of_find?_eq_some h
      rw [List.mem_range] at hmem
      rw [decide_eq_true_eq] at hpred
      rw [hpred]
      exact ⟨hmem, rfl⟩
  · rintro ⟨hj, hpar⟩
    rw [parIdx, hpar]
    show (List.range order.length).find?
        (fun j2 => decide (pathAt order j2 = pathAt order j)) = some j
    cases hf : (List.range order.length).find?
        (fun j2 => decide (pathAt order j2 = pathAt order j)) with
    | none =>
      exfalso
      rw [List.find?_eq_none] at hf
      exact absurd (by simp) (hf j (List.mem_range.mpr hj))
    | some j2 =>
      have hpred := List.find?_some hf
      have hmem := List.mem_of_find?_eq_some hf
      rw [List.mem_range] at hmem
      rw [decide_eq_true_eq] at hpred
      rw [Option.some.injEq]
      exact pathAt_inj order hnd j2 j hmem hj hpred

theorem parIdx_eq_none_iff (order : List PostIn) (hpp : ParentsPresent order)
    (i : Nat) (hi : i < order.length) :
    parIdx order i = none ↔ parentPathAt order i = none := by
  constructor
  · intro h
    rw [parIdx] at h
    cases hp : parentPathAt order i with
    | none => rfl
    | some k =>
      rw [hp] at h
      exfalso
      have hkmem : k ∈ order.map (fun v => v.path) :=
        hpp (order.getD i default) (getD_mem_of_lt order i hi) k hp
      rcases pathAt_exists_of_mem order k hkmem with ⟨j, hj, hpathj⟩
      rw [List.find?_eq_none] at h
      exact absurd (by simp [hpathj]) (h j (List.mem_range.mpr hj))
  · intro h
    rw [parIdx, h]

theorem rank_norm_lt (order : List PostIn) (rank : String → Nat) (i j : Nat)
    (hj : j < order.length)
    (hr : rank (pathAt order j) < rank (pathAt order i)) :
    ((List.range order.length).filter
      (fun x => rank (pathAt order x) < rank (pathAt order j))).length <
    ((List.range order.length).filter
      (fun x => rank (pathAt order x) < rank (pathAt order i))).length := by
  have heq : (List.range order.length).filter
      (fun x => rank (pathAt order x) < rank (pathAt order j)) =
      ((List.range order.length).filter
        (fun x => rank (pathAt order x) < rank (pathAt order i))).filter
        (fun x => rank (pathAt order x) < rank (pathAt order j)) := by
    rw [List.filter_filter]
    apply List.filter_congr
    intro x _
    by_cases hx : rank (pathAt order x) < rank (pathAt order j)
    · have hx2 : rank (pathAt order x) < rank (pathAt order i) := by omega
      simp [hx, hx2]
    · simp [hx]
  rw [heq]
  apply List.length_filter_lt_length_iff_exists.mpr
  refine ⟨j, ?_, by simp⟩
  rw [List.mem_filter, List.mem_range]
  simp [hj, hr]

theorem rank_norm_bound (order : List PostIn) (rank : String → Nat) (i : Nat)
    (hi : i < order.length) :
    ((List.range order.length).filter
      (fun x => rank (pathAt order x) < rank (pathAt order i))).length <
      order.length := by
  have h1 : ((List.range order.length).filter
      (fun x => rank (pathAt order x) < rank (pathAt order i))).length <
      (List.range order.length).length := by
    apply List.length_filter_lt_length_iff_exists.mpr
    exact ⟨i, List.mem_range.mpr hi, by simp⟩
  rwa [List.length_range] at h1

theorem subtree_desc (order : List PostIn) (st : VState)
    (hnd : PathsDistinct order) (hinv : DeliveryInv order [] st) :
    ∀ (fuel e : Nat), e < order.length →
      (subtreeFlatten st.childrenMap fuel e).Perm
        (descF (parIdx order) order.length fuel e) := by
  intro fuel
  induction fuel with
  | zero =>
    intro e _
    exact List.Perm.refl [e]
  | succ f ihf =>
    intro e he
    have hch := hinv.hChild e he
    have hcheq : childIdx order [] e = chlF (parIdx order) order.length e := by
      apply List.filter_congr
      intro x _
      have hiff : parentPathAt order x = some (pathAt order e) ↔
          parIdx order x = some e := by
        rw [parIdx_eq_some_iff order hnd x e]
        constructor
        · intro h
          exact ⟨he, h⟩
        · intro h
          exact h.2
      simp only [List.contains_nil, Bool.not_false, Bool.and_true]
      exact decide_eq_decide.mpr hiff
    have hsub : subtreeFlatten st.childrenMap (f + 1) e =
        e :: (((mapGet st.childrenMap e).getD []).map
          (fun c => subtreeFlatten st.childrenMap f c)).flatten := rfl
    have hdesc : descF (parIdx order) order.length (f + 1) e =
        e :: ((chlF (parIdx order) order.length e).map
          (descF (parIdx order) order.length f)).flatten := rfl
    rw [hsub, hdesc]
    refine List.Perm.cons e ?_
    refine ((hch.map (fun c => subtreeFlatten st.childrenMap f c)).flatten).trans
      ?_
    rw [hcheq]
    apply flatten_map_congr_perm
    intro x hx
    rw [mem_chlF] at hx
    exact ihf x hx.1

theorem roots_level (order : List PostIn) (hpp : ParentsPresent order) :
    rootsIdx order [] = levelF (parIdx order) order.length 0 := by
  apply List.filter_congr
  intro i hi
  rw [List.mem_range] at hi
  cases hp : parentPathAt order i with
  | none =>
    have h2 : parIdx order i = none :=
      (parIdx_eq_none_iff order hpp i hi).mpr hp
    simp [h2]
  | some k =>
    have h2 : parIdx order i ≠ none := by
      intro heq
      rw [(parIdx_eq_none_iff order hpp i hi).mp heq] at hp
      cases hp
    rcases Option.ne_none_iff_exists.mp h2 with ⟨j, hj⟩
    simp [← hj]

theorem final_display (order : List PostIn) (st : VState) (rank : String → Nat)
    (hnd : PathsDistinct order) (hpp : ParentsPresent order)
    (hro : RankOrdered rank order) (hinv : DeliveryInv order [] st) :
    (displayedPosts st order.length).Perm (List.range order.length) := by
  have hedge : ∀ c j, c < order.length → parIdx order c = some j →
      j < order.length ∧
      ((List.range order.length).filter
        (fun x => rank (pathAt order x) < rank (pathAt order j))).length <
      ((List.range order.length).filter
        (fun x => rank (pathAt order x) < rank (pathAt order c))).length := by
    intro c j hc hpj
    rcases (parIdx_eq_some_iff order hnd c j).mp hpj with ⟨hj, hpar⟩
    have hrank : rank (pathAt order j) < rank (pathAt order c) := by
      refine hro (order.getD j default) (getD_mem_of_lt order j hj)
        (order.getD c default) (getD_mem_of_lt order c hc) ?_
      exact hpar
    exact ⟨hj, rank_norm_lt order rank c j hj hrank⟩
  have hbound : ∀ i, i < order.length →
      ((List.range order.length).filter
        (fun x => rank (pathAt order x) < rank (pathAt order i))).length <
      order.length := fun i hi => rank_norm_bound order rank i hi
  show ((st.topLevel.map
    (fun e => subtreeFlatten st.childrenMap order.length e)).flatten).Perm
    (List.range order.length)
  refine ((hinv.hTop.map
    (fun e => subtreeFlatten st.childrenMap order.length e)).flatten).trans ?_
  rw [roots_level order hpp]
  refine (flatten_map_congr_perm _ _ _ ?_).trans
    (canonical_flatten (parIdx order) order.length
      (fun i => ((List.range order.length).filter
        (fun x => rank (pathAt order x) < rank (pathAt order i))).length)
      hedge hbound)
  intro x hx
  exact subtree_desc order st hnd hinv order.length x
    (levelF_subset_range (parIdx order) order.length 0 x hx)

/-- C1 amended: when post paths are distinct, every effective parent reference
names another post of the set, a rank function certifies that the parent
relation is a forest, and no two posts sharing a parent are both delivered
before that parent, then delivering one creation update per post to
handleUpdate leaves the active index with exactly one entry per post (keyed by
path, in delivery order) and renders every indexed element exactly once in the
channel tree. -/
theorem c1_amended_tree_completeness (username : String) (order : List PostIn)
    (rank : String → Nat) (hnd : PathsDistinct order)
    (hpp : ParentsPresent order) (hro : RankOrdered rank order)
    (hone : AtMostOneEarlyOrphan order) :
    (deliverAll username order initState).activePosts.map (fun kv => kv.1) =
      order.map (fun v => v.path) ∧
    (displayedPosts (deliverAll username order initState) order.length).Perm
      ((deliverAll username order initState).activePosts.map
        (fun kv => kv.2)) := by
  rcases deliverAll_inv order username hnd hpp hone with ⟨P, hinv⟩
  have hP := pend_empty order rank hpp hro P _ hinv
  subst hP
  constructor
  · rw [hinv.hActive, withEids_map_fst]
  · have hsnd : (deliverAll username order initState).activePosts.map
        (fun kv => kv.2) = List.range order.length := by
      rw [hinv.hActive, withEids_map_snd, ← List.range_eq_range']
    rw [hsnd]
    exact final_display order _ rank hnd hpp hro hinv

/-- C1 amended instance: the delivery order c1 (early orphan), p (its parent),
c2 (late sibling) satisfies the hypotheses and yields a fully indexed and
fully rendered channel tree. -/
theorem c1_amended_witness :
    (PathsDistinct ordersValid ∧ ParentsPresent ordersValid ∧
      RankOrdered rankValid ordersValid ∧ AtMostOneEarlyOrphan ordersValid) ∧
    ((deliverAll "me" ordersValid initState).activePosts.map (fun kv => kv.1) =
      ordersValid.map (fun v => v.path) ∧
    (displayedPosts (deliverAll "me" ordersValid initState)
      ordersValid.length).Perm
      ((deliverAll "me" ordersValid initState).activePosts.map
        (fun kv => kv.2))) := by
  have hnd : PathsDistinct ordersValid := by decide
  have hpp : ParentsPresent ordersValid := by
    intro u hu q hq
    have hu2 : u = samplePost "c1" (some "p") 5 ∨ u = samplePost "p" none 1 ∨
        u = samplePost "c2" (some "p") 7 := by
      simpa [ordersValid] using hu
    rcases hu2 with rfl | rfl | rfl
    · have hqp : "p" = q := by
        simpa [samplePost, optNonEmpty] using hq
      subst hqp
      decide
    · rw [show optNonEmpty (samplePost "p" none 1).parentD = none from rfl]
        at hq
      cases hq
    · have hqp : "p" = q := by
        simpa [samplePost, optNonEmpty] using hq
      subst hqp
      decide
  have hro : RankOrdered rankValid ordersValid := by decide
  have hone : AtMostOneEarlyOrphan ordersValid := by
    intro i j k hij hjk hk h1 h2
    have hlen : ordersValid.length = 3 := rfl
    rw [hlen] at hk
    have hk2 : k = 2 := by omega
    have hj2 : j = 1 := by omega
    subst hk2
    subst hj2
    exact absurd h2 (by decide)
  exact ⟨⟨hnd, hpp, hro, hone⟩,
    c1_amended_tree_completeness "me" ordersValid rankValid hnd hpp hro hone⟩
